import Mathlib

/-!
Verification of the Sentinel HG extension against its specification.

Strings are modelled as `List Char`; JS numbers used for model scores,
confidence values and thresholds are modelled as exact rationals `ℚ`.
-/

namespace Sentinel

/-- The JS `\s` whitespace class, restricted to the ASCII whitespace
characters that occur in practice (space, tab, line feed, vertical tab,
form feed, carriage return). -/
def isSpace (c : Char) : Bool :=
  c = ' ' || c = '\t' || c = '\n' || c = '\r' || c = '\x0b' || c = '\x0c'

/-- `startsWithL hay pat`: `pat` is a prefix of `hay`. -/
def startsWithL : List Char → List Char → Bool
  | _, [] => true
  | [], _ :: _ => false
  | a :: as, b :: bs => a = b && startsWithL as bs

/-- JS `String.prototype.includes`: `pat` occurs contiguously in `hay`. -/
def containsSub (hay pat : List Char) : Bool :=
  match hay with
  | [] => startsWithL [] pat
  | c :: t => startsWithL (c :: t) pat || containsSub t pat

/-- Abbreviation turning a string literal into the `List Char` representation. -/
def cs (s : String) : List Char := s.toList

/-- Length of the `https?://` literal prefix at the head of `l`
(8 for `https://`, 7 for `http://`, 0 when absent), mirroring the
alternatives of the regex `https?:\/\/` with the greedy optional `s`. -/
def urlPrefixLen (l : List Char) : Nat :=
  if startsWithL l (cs "https://") then 8
  else if startsWithL l (cs "http://") then 7
  else 0

/-- Length of the match of the regex `https?:\/\/[^\s]+` at the head of
`l`, or 0 when the regex does not match there.  The `[^\s]+` part is
greedy, consuming the whole non-whitespace run, and must be non-empty. -/
def urlMatchLen (l : List Char) : Nat :=
  let p := urlPrefixLen l
  if p = 0 then 0
  else
    let run := (l.drop p).takeWhile (fun c => !isSpace c)
    if run.length = 0 then 0 else p + run.length

/-- Fuel-indexed worker for `removeUrls`; the fuel is an upper bound on the
list length, so the base case `fuel = 0` is never reached with a non-empty
list when called through `removeUrls`. -/
def removeUrlsAux : Nat → List Char → List Char
  | 0, _ => []
  | _ + 1, [] => []
  | fuel + 1, c :: rest =>
    let n := urlMatchLen (c :: rest)
    if 0 < n then removeUrlsAux fuel ((c :: rest).drop n)
    else c :: removeUrlsAux fuel rest

/-- The global replacement `processed.replace(/https?:\/\/[^\s]+/g, '')`:
scan left to right, deleting each leftmost match of the URL regex. -/
def removeUrls (l : List Char) : List Char :=
  removeUrlsAux l.length l

/-- Worker for `collapseWs`: the flag records whether the previously read
character was whitespace (in which case further whitespace of the same run
is dropped). -/
def collapseAux : Bool → List Char → List Char
  | _, [] => []
  | prevSpace, c :: rest =>
    if isSpace c then
      if prevSpace then collapseAux true rest
      else ' ' :: collapseAux true rest
    else c :: collapseAux false rest

/-- The replacement `processed.replace(/\s+/g, ' ')`: every maximal
whitespace run becomes a single space. -/
def collapseWs (l : List Char) : List Char :=
  collapseAux false l

/-- Leading-whitespace removal half of JS `String.prototype.trim`. -/
def trimLeft (l : List Char) : List Char :=
  l.dropWhile isSpace

/-- Trailing-whitespace removal half of JS `String.prototype.trim`. -/
def trimRight (l : List Char) : List Char :=
  (l.reverse.dropWhile isSpace).reverse

/-- JS `String.prototype.trim`. -/
def jsTrim (l : List Char) : List Char :=
  trimRight (trimLeft l)

/-- `TEXT_PREPROCESSING.maxLength` from `model-config.ts`. -/
def maxLength : Nat := 512

/-- `preprocessText` from `model-config.ts`: strip URLs, collapse
whitespace and trim, then truncate to `maxLength` characters.
(`substring(0, maxLength)` is applied only when the length exceeds
`maxLength`, which is the same function as unconditional `take`.) -/
def preprocessText (l : List Char) : List Char :=
  let noUrls := removeUrls l
  let collapsed := jsTrim (collapseWs noUrls)
  collapsed.take maxLength

/-- `l` contains a substring matching `https?:\/\/[^\s]+` (a match of the
URL regex starts at some suffix of `l`). -/
def containsUrl : List Char → Bool
  | [] => false
  | c :: rest => 0 < urlMatchLen (c :: rest) || containsUrl rest

/-- `l` contains two consecutive whitespace characters. -/
def hasDoubleWs : List Char → Bool
  | [] => false
  | [_] => false
  | a :: b :: rest => (isSpace a && isSpace b) || hasDoubleWs (b :: rest)

/-- The head of `l` is a whitespace character. -/
def headIsSpace : List Char → Bool
  | [] => false
  | c :: _ => isSpace c

/-- The last character of `l` is a whitespace character. -/
def lastIsSpace (l : List Char) : Bool :=
  headIsSpace l.reverse

/-! ## Model configuration (`model-config.ts`) -/

/-- A model configuration entry of `HATE_SPEECH_MODELS`.  The label sets
are stored as `List Char` because the classifier labels they are matched
against are modelled that way. -/
structure ModelConfig where
  name : String
  modelId : String
  hatefulLabels : List (List Char)
  normalLabels : List (List Char)
  confidenceThreshold : ℚ
  maxTextLength : Nat
deriving DecidableEq

/-- `HATE_SPEECH_MODELS[0]`. -/
def twitterModel : ModelConfig :=
  { name := "Twitter Hate Speech Detector"
    modelId := "cardiffnlp/twitter-roberta-base-hate"
    hatefulLabels := [cs "hate", cs "offensive"]
    normalLabels := [cs "normal", cs "not-hate", cs "not-offensive"]
    confidenceThreshold := mkRat 7 10
    maxTextLength := 512 }

/-- `HATE_SPEECH_MODELS[1]`. -/
def toxicModel : ModelConfig :=
  { name := "Toxic Comment Classifier"
    modelId := "unitary/toxic-bert"
    hatefulLabels := [cs "toxic", cs "severe_toxic", cs "obscene", cs "threat",
      cs "insult", cs "identity_hate"]
    normalLabels := [cs "not-toxic", cs "not-severe_toxic", cs "not-obscene",
      cs "not-threat", cs "not-insult", cs "not-identity_hate"]
    confidenceThreshold := mkRat 7 10
    maxTextLength := 512 }

/-- `HATE_SPEECH_MODELS[2]`. -/
def facebookModel : ModelConfig :=
  { name := "Hate Speech Detector"
    modelId := "facebook/roberta-hate-speech-detector"
    hatefulLabels := [cs "hate", cs "offensive"]
    normalLabels := [cs "normal", cs "not-hate", cs "not-offensive"]
    confidenceThreshold := mkRat 7 10
    maxTextLength := 512 }

/-- `HATE_SPEECH_MODELS` from `model-config.ts`. -/
def hateSpeechModels : List ModelConfig :=
  [twitterModel, toxicModel, facebookModel]

/-- `DEFAULT_MODEL = HATE_SPEECH_MODELS[0]`. -/
def defaultModel : ModelConfig := twitterModel

/-! ## Classification engine (`part_001`, `BackgroundServiceWorker`) -/

/-- Lowercasing a JS string (`String.prototype.toLowerCase`), restricted
to the ASCII case mapping used by the label strings involved. -/
def lowerL (l : List Char) : List Char :=
  l.map Char.toLower

/-- `\w` of the keyword-cleaning regex `/[^\w]/g`: ASCII letters, digits
and underscore. -/
def isWordChar (c : Char) : Bool :=
  c.isAlphanum || c = '_'

/-- The stop-word set of `extractKeywords`. -/
def commonWords : List (List Char) :=
  [cs "the", cs "a", cs "an", cs "and", cs "or", cs "but", cs "in", cs "on",
   cs "at", cs "to", cs "for", cs "of", cs "with", cs "by",
   cs "is", cs "are", cs "was", cs "were", cs "be", cs "been", cs "being",
   cs "have", cs "has", cs "had", cs "do", cs "does", cs "did",
   cs "will", cs "would", cs "could", cs "should", cs "may", cs "might",
   cs "can", cs "this", cs "that", cs "these", cs "those",
   cs "i", cs "you", cs "he", cs "she", cs "it", cs "we", cs "they",
   cs "me", cs "him", cs "her", cs "us", cs "them",
   cs "my", cs "your", cs "his", cs "its", cs "our", cs "their",
   cs "mine", cs "yours", cs "hers", cs "ours", cs "theirs"]

/-- Character-by-character splitter used to model `split(/\s+/)`.  It
emits one (possibly empty) token per whitespace character instead of one
per whitespace run; the difference is only extra empty tokens, which the
length filter of `extractKeywords` discards, so the final keyword list is
the same. -/
def splitWsChar (cur : List Char) : List Char → List (List Char)
  | [] => [cur.reverse]
  | c :: rest =>
    if isSpace c then cur.reverse :: splitWsChar [] rest
    else splitWsChar (c :: cur) rest

/-- One `wordCount.set(cleanWord, (wordCount.get(cleanWord) || 0) + 1)`
step on an insertion-ordered association list (JS `Map` preserves
insertion order). -/
def bumpCount (w : List Char) : List (List Char × Nat) → List (List Char × Nat)
  | [] => [(w, 1)]
  | (x, n) :: t => if x = w then (x, n + 1) :: t else (x, n) :: bumpCount w t

/-- Stable insertion into a list sorted by strictly decreasing count;
equal counts keep their existing order, matching the stable JS
`sort((a, b) => b[1] - a[1])`. -/
def insertDesc (x : List Char × Nat) : List (List Char × Nat) → List (List Char × Nat)
  | [] => [x]
  | y :: t => if y.2 < x.2 then x :: y :: t else y :: insertDesc x t

/-- `extractKeywords` from the background service worker: lowercase,
split on whitespace, strip non-word characters, drop short and common
words, count occurrences and return the five most frequent words. -/
def extractKeywords (text : List Char) : List (List Char) :=
  let words := splitWsChar [] (lowerL text)
  let counted := words.foldl (fun m w =>
    let cw := w.filter isWordChar
    if 3 < cw.length && !(commonWords.contains cw) then bumpCount cw m else m) []
  ((counted.foldl (fun acc x => insertDesc x acc) []).take 5).map (·.1)

/-- Classification verdict labels. -/
inductive Label where
  | hateful
  | normal
deriving DecidableEq

/-- `ClassificationResult` (the `method` field is always the literal
`'ai'` in this revision of the code). -/
structure ClassificationResult where
  label : Label
  confidence : ℚ
  keywords : List (List Char)
  explanation : String
  method : String
deriving DecidableEq

/-- The running state of `classifyWithAI`'s scan over the classifier
output: `maxConfidence`, `detectedLabel` and `isHateful`. -/
structure ScanState where
  maxConfidence : ℚ
  detectedLabel : List Char
  isHateful : Bool
deriving DecidableEq

/-- `modelConfig.labels.hateful.some(hateLabel => label.includes(hateLabel))`
applied to an (already lowercased) classifier label. -/
def matchesHateful (cfg : ModelConfig) (label : List Char) : Bool :=
  cfg.hatefulLabels.any (fun h => containsSub label h)

/-- `modelConfig.labels.normal.some(normalLabel => label.includes(normalLabel))`
applied to an (already lowercased) classifier label. -/
def matchesNormal (cfg : ModelConfig) (label : List Char) : Bool :=
  cfg.normalLabels.any (fun h => containsSub label h)

/-- One iteration of the `for (const classification of result)` loop in
`classifyWithAI`: the hateful-label check runs first and may update the
running maximum and set `isHateful`; the normal-label check runs second
on the updated state and is skipped entirely once `isHateful` is set. -/
def scanStep (cfg : ModelConfig) (st : ScanState) (p : List Char × ℚ) : ScanState :=
  let label := lowerL p.1
  let confidence := p.2
  let st1 :=
    if matchesHateful cfg label && st.maxConfidence < confidence then
      { maxConfidence := confidence, detectedLabel := label, isHateful := true }
    else st
  if matchesNormal cfg label && st1.maxConfidence < confidence && !st1.isHateful then
    { maxConfidence := confidence, detectedLabel := label, isHateful := false }
  else st1

/-- The initial scan state (`maxConfidence = 0`, `detectedLabel =
'normal'`, `isHateful = false`). -/
def initScan : ScanState :=
  { maxConfidence := 0, detectedLabel := cs "normal", isHateful := false }

/-- The final state of `classifyWithAI`'s scan over the classifier
output list. -/
def scanFinal (cfg : ModelConfig) (result : List (List Char × ℚ)) : ScanState :=
  result.foldl (scanStep cfg) initScan

/-- `classifyWithAI` on the array-shaped classifier output: scan the
`(rawLabel, score)` pairs, then return a hateful verdict exactly when the
final `isHateful` flag is set and the running maximum meets the
threshold (`this.settings.confidence`), clamping the reported confidence
to at most 0.95 for hateful and at least 0.5 for normal verdicts.
`Math.round` is round-half-up, which is Mathlib's `round`.  The pair list
stands for the model inference result; inference exceptions are outside
this pure model. -/
def classifyWithAI (cfg : ModelConfig) (threshold : ℚ) (text : List Char)
    (result : List (List Char × ℚ)) : ClassificationResult :=
  if (scanFinal cfg result).isHateful ∧ threshold ≤ (scanFinal cfg result).maxConfidence then
    { label := .hateful
      confidence := min (mkRat 19 20) (scanFinal cfg result).maxConfidence
      keywords := extractKeywords (preprocessText text)
      explanation := "AI model detected " ++
        String.mk (scanFinal cfg result).detectedLabel ++
        " content with " ++ toString (round ((scanFinal cfg result).maxConfidence * 100)) ++
        "% confidence using " ++ cfg.name
      method := "ai" }
  else
    { label := .normal
      confidence := max (mkRat 1 2) (scanFinal cfg result).maxConfidence
      keywords := []
      explanation := "AI model classified as " ++
        String.mk (scanFinal cfg result).detectedLabel ++
        " content with " ++ toString (round ((scanFinal cfg result).maxConfidence * 100)) ++
        "% confidence using " ++ cfg.name
      method := "ai" }

/-- The extension settings held by the background service worker. -/
structure Settings where
  enabled : Bool
  confidence : ℚ
  selectedModel : String
deriving DecidableEq

/-- `getCurrentModelConfig`: look up the selected model, falling back to
`DEFAULT_MODEL`. -/
def getCurrentModelConfig (selectedModel : String) : ModelConfig :=
  (hateSpeechModels.find? (fun m => m.modelId = selectedModel)).getD defaultModel

/-- The model-lifecycle half of the background worker's state:
`isModelLoaded`/`isModelLoading` are the code's two flags (Unloaded and
Failed both have `isModelLoaded = false`), `hasClassifier` models
`this.classifier !== null`, and `infer` is the loaded pipeline as an
opaque text-to-scored-labels oracle. -/
structure EngineState where
  isModelLoaded : Bool
  isModelLoading : Bool
  hasClassifier : Bool
  infer : List Char → List (List Char × ℚ)

/-- The fail-safe result that `classifyText` returns when the AI model is
not available. -/
def failSafeResult : ClassificationResult :=
  { label := .normal
    confidence := mkRat 1 2
    keywords := []
    explanation := "AI model not available - defaulting to normal classification"
    method := "ai" }

/-- `classifyText` of the background service worker: use the AI model
when it is loaded, otherwise return the fail-safe default.  The function
is total, so the never-throws part of the spec is structural here. -/
def classifyText (engine : EngineState) (settings : Settings) (text : List Char) :
    ClassificationResult :=
  if engine.isModelLoaded && engine.hasClassifier then
    classifyWithAI (getCurrentModelConfig settings.selectedModel) settings.confidence text
      (engine.infer (preprocessText text))
  else failSafeResult

/-- The `text` field of an incoming classification request as a JS value:
a string, absent (`undefined`/`null`), or some non-string value.  The
code's guard `!text || typeof text !== 'string'` rejects exactly the
non-strings and the empty string. -/
inductive JSText where
  | str (s : List Char)
  | missing
  | nonString
deriving DecidableEq

/-- A `classifyText` message from the content script. -/
structure ClassificationRequest where
  text : JSText
  elementId : String
deriving DecidableEq

/-- A `ClassificationResponse` sent back to the content script. -/
structure ClassificationResponse where
  success : Bool
  classification : Option ClassificationResult
  elementId : String
  error : Option String
  originalText : Option (List Char)
deriving DecidableEq

/-- A stored detection (the `Date.now()`-derived `id` and `timestamp`
are environment values and are not part of the model). -/
structure Detection where
  text : List Char
  confidence : ℚ
  keywords : List (List Char)
deriving DecidableEq

/-- The `{detected, filtered}` counters of the local-storage partition. -/
structure BgStats where
  detected : Nat
  filtered : Nat
deriving DecidableEq

/-- The background worker state visible to `handleClassificationRequest`. -/
structure BgState where
  engine : EngineState
  settings : Settings
  recentDetections : List Detection
  stats : BgStats

/-- `storeDetection`: prepend the new detection (keeping the newest 50)
and bump both counters. -/
def storeDetection (st : BgState) (text : List Char) (c : ClassificationResult) :
    BgState :=
  { st with
    recentDetections :=
      ({ text := text, confidence := c.confidence, keywords := c.keywords } ::
        st.recentDetections).take 50
    stats := { detected := st.stats.detected + 1, filtered := st.stats.filtered + 1 } }

/-- `handleClassificationRequest`: reject malformed text synchronously
with a structured error; otherwise classify, store hateful detections,
and answer with the classification. -/
def handleClassificationRequest (st : BgState) (req : ClassificationRequest) :
    ClassificationResponse × BgState :=
  match req.text with
  | .str (c :: rest) =>
    let s := c :: rest
    let r := classifyText st.engine st.settings s
    let st' := if r.label = .hateful then storeDetection st s r else st
    ({ success := true, classification := some r, elementId := req.elementId,
       error := none, originalText := some s }, st')
  | _ =>
    ({ success := false, classification := none, elementId := req.elementId,
       error := some "Invalid text provided", originalText := none }, st)

/-! ## Feedback store (`part_002`, `FeedbackManager`) -/

/-- `userFeedback.type` of a feedback entry. -/
inductive FbType where
  | false_positive
  | false_negative
  | correct
deriving DecidableEq

/-- A stored `FeedbackData` record.  The classification snapshot, context
and metadata fields are opaque payload for the properties proved here and
are represented by `originalText`; `id` and `timestamp` are assigned by
`submitFeedback`. -/
structure FeedbackData where
  id : String
  timestamp : Nat
  originalText : List Char
  fbType : FbType
deriving DecidableEq

/-- A feedback record as submitted, before `id` and `timestamp` are
assigned (`Omit<FeedbackData, 'id' | 'timestamp'>`). -/
structure PendingFeedback where
  originalText : List Char
  fbType : FbType
deriving DecidableEq

/-- The stored `FeedbackStats` object.  `recentFeedback` is part of the
stored record because `updateStats` persists the whole object returned by
`getFeedbackStats`, which includes it. -/
structure FeedbackStats where
  totalFeedback : Nat
  falsePositives : Nat
  falseNegatives : Nat
  correctClassifications : Nat
  accuracy : ℚ
  recentFeedback : List FeedbackData
deriving DecidableEq

/-- `getDefaultStats`. -/
def getDefaultStats : FeedbackStats :=
  { totalFeedback := 0, falsePositives := 0, falseNegatives := 0,
    correctClassifications := 0, accuracy := 0, recentFeedback := [] }

/-- The `chrome.storage.local` slice owned by the feedback manager: the
bounded feedback log under `feedbackKey` and the optional stats object
under `statsKey` (`none` when the key is absent). -/
structure FeedbackStore where
  feedback : List FeedbackData
  stats : Option FeedbackStats
deriving DecidableEq

/-- The store before any feedback has been submitted. -/
def emptyFeedbackStore : FeedbackStore :=
  { feedback := [], stats := none }

/-- `getFeedbackStats`: the stored stats (or the defaults), with
`recentFeedback` replaced by the newest 50 log entries. -/
def getFeedbackStats (store : FeedbackStore) : FeedbackStats :=
  let s := store.stats.getD getDefaultStats
  { s with recentFeedback := store.feedback.take 50 }

/-- `updateStats`: read the current stats, bump `totalFeedback` and the
one counter matching the feedback type, recompute `accuracy` as
correct/(correct+falsePositives+falseNegatives) (0 when that denominator
is 0), and store the result. -/
def updateStats (store : FeedbackStore) (fb : FeedbackData) : FeedbackStore :=
  let cur := getFeedbackStats store
  let cur1 := { cur with totalFeedback := cur.totalFeedback + 1 }
  let cur2 :=
    match fb.fbType with
    | .false_positive => { cur1 with falsePositives := cur1.falsePositives + 1 }
    | .false_negative => { cur1 with falseNegatives := cur1.falseNegatives + 1 }
    | .correct => { cur1 with correctClassifications := cur1.correctClassifications + 1 }
  let totalClassified :=
    cur2.falsePositives + cur2.falseNegatives + cur2.correctClassifications
  let cur3 :=
    { cur2 with accuracy :=
        if 0 < totalClassified then
          (cur2.correctClassifications : ℚ) / (totalClassified : ℚ)
        else 0 }
  { store with stats := some cur3 }

/-- Outcome of a `submitFeedback` call as seen by the caller: normal
return, or a storage error propagated by the rethrowing `catch`. -/
inductive SubmitResult where
  | ok
  | err
deriving DecidableEq

/-- `submitFeedback` with explicit storage-failure injection.  `newId` and
`timestamp` are the environment-supplied `generateId()`/`Date.now()`
values.  `failLog` makes the `chrome.storage.local.set` that writes the
feedback log throw: the outer catch rethrows and nothing is written.
`failStats` makes the write inside `updateStats` throw: that error is
caught inside `updateStats` and only logged, so the call still reports
success while the stats are left unchanged. -/
def submitFeedbackF (store : FeedbackStore) (p : PendingFeedback)
    (newId : String) (timestamp : Nat) (failLog failStats : Bool) :
    SubmitResult × FeedbackStore :=
  let fbd : FeedbackData :=
    { id := newId, timestamp := timestamp, originalText := p.originalText,
      fbType := p.fbType }
  if failLog then (.err, store)
  else
    let store1 := { store with feedback := (fbd :: store.feedback).take 1000 }
    if failStats then (.ok, store1)
    else (.ok, updateStats store1 fbd)

/-- A successful `submitFeedback` call (no storage failure), as a step
function for folding a sequence of submissions. -/
def submitStep (store : FeedbackStore) (sub : PendingFeedback × String × Nat) :
    FeedbackStore :=
  (submitFeedbackF store sub.1 sub.2.1 sub.2.2 false false).2

/-- The `FeedbackData` record that a successful submission appends. -/
def mkFeedbackData (sub : PendingFeedback × String × Nat) : FeedbackData :=
  { id := sub.2.1, timestamp := sub.2.2, originalText := sub.1.originalText,
    fbType := sub.1.fbType }

/-- The export object produced by `exportFeedback`.  The JSON
serialisation of this plain data object followed by `JSON.parse` is the
identity on it, so the round-tripped value is modelled by the object
itself; `exportDate` is the environment-supplied ISO timestamp. -/
structure ExportData where
  exportDate : String
  stats : FeedbackStats
  feedback : List FeedbackData
deriving DecidableEq

/-- `exportFeedback`: snapshot of `getAllFeedback()` (the full stored
log) and `getFeedbackStats()`. -/
def exportFeedback (store : FeedbackStore) (exportDate : String) : ExportData :=
  { exportDate := exportDate
    stats := getFeedbackStats store
    feedback := store.feedback }

/-! ## Content script (`part_004`, `ContentScript`)

The DOM subtree handed to `findTextElements` is a tree of element and
text nodes.  Element identity (used by the `processedElements` set and
the `elements.includes` deduplication) is modelled by a `ref` number on
each element; `dataset.hsExtId` and the `processedElements` set live in a
separate mutable `CSState`, since `processTextElement` updates them
without changing the tree. -/

/-- The per-element data that the content script reads: identity, tag
name, and the layout/style values consulted by `isElementVisible`. -/
structure ElemData where
  ref : Nat
  tag : String
  offsetWidth : Nat
  offsetHeight : Nat
  display : String
  visibility : String
  opacity : String
  rectWidth : Nat
  rectHeight : Nat
deriving DecidableEq

mutual
/-- A DOM node: an element with children, or a text node. -/
inductive DNode where
  | elem (d : ElemData) (kids : DForest)
  | text (s : List Char)
deriving DecidableEq

/-- An ordered list of sibling DOM nodes. -/
inductive DForest where
  | nil
  | cons (hd : DNode) (tl : DForest)
deriving DecidableEq
end

mutual
/-- `Node.textContent` of an element: the concatenation of all descendant
text, in document order. -/
def textContentN : DNode → List Char
  | .elem _ kids => textContentF kids
  | .text s => s

/-- `textContentN` over a forest of children. -/
def textContentF : DForest → List Char
  | .nil => []
  | .cons n t => textContentN n ++ textContentF t
end

/-- The mutable content-script state: elements with `dataset.hsExtId`
set, the `processedElements` set, the `uniqueIdCounter`, and the
classification requests sent so far as (text, counter value) pairs. -/
structure CSState where
  marked : List Nat
  processed : List Nat
  counter : Nat
  sent : List (List Char × Nat)
deriving DecidableEq

/-- The check `parent.dataset.hsExtId || this.processedElements.has(parent)`
(every assigned `hs-ext-…` id is a non-empty, hence truthy, string). -/
def isMarkedOrProcessed (st : CSState) (r : Nat) : Bool :=
  st.marked.contains r || st.processed.contains r

/-- `isChildOfProcessedElement`: some ancestor (given as the list of
ancestor refs from the parent upward, continuing above the walker root to
the document root) is marked or processed. -/
def childOfProcessed (st : CSState) (anc : List Nat) : Bool :=
  anc.any (isMarkedOrProcessed st)

/-- The tag whitelist of `isTextElement`. -/
def textElementTags : List String :=
  ["P", "SPAN", "DIV", "H1", "H2", "H3", "H4", "H5", "H6",
   "LI", "BLOCKQUOTE", "ARTICLE", "SECTION", "MAIN", "ASIDE",
   "FIGCAPTION", "LABEL", "TD", "TH"]

/-- The tag blacklist of `isTextElement`. -/
def nonContentTags : List String :=
  ["SCRIPT", "STYLE", "NOSCRIPT", "META", "LINK", "INPUT",
   "TEXTAREA", "SELECT", "BUTTON", "FORM", "HEAD", "TITLE"]

/-- `isElementVisible`: non-zero offset size, not hidden via
display/visibility/opacity, non-zero bounding rectangle. -/
def isElementVisible (d : ElemData) : Bool :=
  !(d.offsetWidth = 0 || d.offsetHeight = 0) &&
  !(d.display = "none" || d.visibility = "hidden" || d.opacity = "0") &&
  !(d.rectWidth = 0 || d.rectHeight = 0)

/-- `isTextElement` on an element with data `d`, children `kids` and
ancestor refs `anc`: substantial trimmed text, whitelisted tag, not
already processed, visible, not a non-content tag, and not nested inside
a processed element. -/
def isTextElement (st : CSState) (anc : List Nat) (d : ElemData) (kids : DForest) : Bool :=
  let trimmed := jsTrim (textContentF kids)
  (decide (10 ≤ trimmed.length) && decide (trimmed.length ≤ 2000)) &&
  textElementTags.contains d.tag &&
  !(isMarkedOrProcessed st d.ref) &&
  isElementVisible d &&
  !(nonContentTags.contains d.tag) &&
  !(childOfProcessed st anc)

/-- The TreeWalker `acceptNode` filter for a text node with content `s`
whose parent element has data `d`, children `kids` and ancestor refs
`anc`: trimmed text of length at least 10, parent not already processed,
and parent a valid text element. -/
def acceptTextNode (st : CSState) (anc : List Nat) (d : ElemData) (kids : DForest)
    (s : List Char) : Bool :=
  decide (10 ≤ (jsTrim s).length) &&
  !(isMarkedOrProcessed st d.ref) &&
  isTextElement st anc d kids

/-- A candidate element collected by `findTextElements`: its data
together with its children (needed to recompute its text content). -/
structure Cand where
  data : ElemData
  kids : DForest
deriving DecidableEq

/-- `acc.includes(parent)` on the accumulated candidate list, by element
identity. -/
def candListHasRef (acc : List Cand) (r : Nat) : Bool :=
  acc.any (fun c => c.data.ref = r)

mutual
/-- TreeWalker visit of one child `n` of the element `d` (full child
forest `full`, ancestor refs of `d` in `anc`): an accepted text child
appends its parent to the accumulator unless already collected; an
element child is walked recursively. -/
def walkChild (st : CSState) (anc : List Nat) (d : ElemData) (full : DForest) :
    DNode → List Cand → List Cand
  | .text s, acc =>
    if acceptTextNode st anc d full s && !(candListHasRef acc d.ref) then
      acc ++ [{ data := d, kids := full }]
    else acc
  | .elem d1 kids1, acc => walkRest st (d.ref :: anc) d1 kids1 kids1 acc

/-- TreeWalker visit of the remaining children `rest` of element `d`, in
document order. -/
def walkRest (st : CSState) (anc : List Nat) (d : ElemData) (full : DForest) :
    DForest → List Cand → List Cand
  | .nil, acc => acc
  | .cons n t, acc => walkRest st anc d full t (walkChild st anc d full n acc)
end

/-- `findTextElements` over the subtree rooted at the element with data
`d` and children `kids`, whose ancestor refs are `anc`: the deduplicated
parents of accepted text nodes, in document order. -/
def findTextElements (st : CSState) (anc : List Nat) (d : ElemData) (kids : DForest) :
    List Cand :=
  walkRest st anc d kids kids []

/-- `processTextElement`: skip short or already-marked elements;
otherwise assign the next unique id, set `dataset.hsExtId` and add the
element to `processedElements` (both before the request is sent), then
send the classification request. -/
def processTextElement (st : CSState) (c : Cand) : CSState :=
  if (jsTrim (textContentF c.kids)).length < 10 || st.marked.contains c.data.ref then st
  else
    { marked := c.data.ref :: st.marked
      processed := c.data.ref :: st.processed
      counter := st.counter + 1
      sent := st.sent ++ [(jsTrim (textContentF c.kids), st.counter + 1)] }

mutual
/-- The refs of parents of text nodes accepted by the walker filter
inside child `n` of element `d` — the element occurrences that
`findTextElements` would collect, with multiplicity and without
deduplication. -/
def accParentsChild (st : CSState) (anc : List Nat) (d : ElemData) (full : DForest) :
    DNode → List Nat
  | .text s => if acceptTextNode st anc d full s then [d.ref] else []
  | .elem d1 kids1 => accParentsRest st (d.ref :: anc) d1 kids1 kids1

/-- `accParentsChild` over the remaining children `f` of element `d`. -/
def accParentsRest (st : CSState) (anc : List Nat) (d : ElemData) (full : DForest) :
    DForest → List Nat
  | .nil => []
  | .cons n t => accParentsChild st anc d full n ++ accParentsRest st anc d full t
end

/-- `st ⊑ st'`: the marked and processed sets only grow from `st` to
`st'`. -/
def subState (st st' : CSState) : Prop :=
  (∀ r, st.marked.contains r = true → st'.marked.contains r = true) ∧
  (∀ r, st.processed.contains r = true → st'.processed.contains r = true)

/-! ## The spec's verdict rule (for comparison with `classifyWithAI`)

The specification describes the verdict as a comparison of per-super-label
maxima.  These definitions follow the spec's words — "take the maximum
score per super-label; classify hateful only if `max(hatefulScores) >
max(normalScores)` and `max(hatefulScores) ≥ confidenceThreshold`" — and
are the claim side of C1, to be compared with the implementation's scan. -/

/-- Maximum of a list of scores, with the scan's initial value 0 as the
default for an empty list. -/
def listMaxQ (l : List ℚ) : ℚ :=
  l.foldl max 0

/-- The maximum score among pairs whose (lowercased) label maps to the
hateful super-label. -/
def specMaxHateful (cfg : ModelConfig) (result : List (List Char × ℚ)) : ℚ :=
  listMaxQ ((result.filter (fun p => matchesHateful cfg (lowerL p.1))).map (·.2))

/-- The maximum score among pairs whose (lowercased) label maps to the
normal super-label. -/
def specMaxNormal (cfg : ModelConfig) (result : List (List Char × ℚ)) : ℚ :=
  listMaxQ ((result.filter (fun p => matchesNormal cfg (lowerL p.1))).map (·.2))

/-- The spec's verdict rule: hateful exactly when the hateful maximum
strictly exceeds the normal maximum and meets the threshold. -/
def specHatefulVerdict (cfg : ModelConfig) (t : ℚ) (result : List (List Char × ℚ)) : Bool :=
  specMaxNormal cfg result < specMaxHateful cfg result &&
  t ≤ specMaxHateful cfg result

/-- Maximum of the scores of a pair list, folded from the left starting
at `a` (the shape of the scan's running maximum). -/
def foldMaxScores (a : ℚ) (l : List (List Char × ℚ)) : ℚ :=
  l.foldl (fun b p => max b p.2) a

/-- The guard `!text || typeof text !== 'string'`: true exactly for the
empty string and every non-string value. -/
def invalidText : JSText → Bool
  | .str s => s.isEmpty
  | .missing => true
  | .nonString => true

/-! ### Properties of the URL matcher -/

theorem startsWithL_iff_take (l pat : List Char) :
    startsWithL l pat = true ↔ l.take pat.length = pat := by
  induction pat generalizing l with
  | nil => simp [startsWithL]
  | cons b bs ih =>
    cases l with
    | nil => simp [startsWithL]
    | cons a as =>
      simp only [startsWithL, Bool.and_eq_true, decide_eq_true_eq,
        List.length_cons, List.take_succ_cons, List.cons.injEq]
      exact and_congr Iff.rfl (ih as)

theorem startsWithL_https_iff (l : List Char) :
    startsWithL l (cs "https://") = true ↔ l.take 8 = cs "https://" := by
  rw [startsWithL_iff_take, show (cs "https://").length = 8 from rfl]

theorem startsWithL_http_iff (l : List Char) :
    startsWithL l (cs "http://") = true ↔ l.take 7 = cs "http://" := by
  rw [startsWithL_iff_take, show (cs "http://").length = 7 from rfl]

/-- A list starting with `http://` does not start with `https://`. -/
theorem not_https_of_http (l : List Char)
    (h : startsWithL l (cs "http://") = true) :
    startsWithL l (cs "https://") = false := by
  by_contra hc
  rw [Bool.not_eq_false, startsWithL_https_iff] at hc
  rw [startsWithL_http_iff] at h
  have h1 : (l.take 8).take 7 = l.take 7 := by
    rw [List.take_take]
    norm_num
  rw [hc, h] at h1
  exact absurd h1 (by decide)

/-- The two possible values of a non-zero `urlPrefixLen`. -/
theorem urlPrefixLen_cases (l : List Char) (h : urlPrefixLen l ≠ 0) :
    (urlPrefixLen l = 8 ∧ startsWithL l (cs "https://") = true) ∨
      (urlPrefixLen l = 7 ∧ startsWithL l (cs "http://") = true ∧
        startsWithL l (cs "https://") = false) := by
  unfold urlPrefixLen at h ⊢
  by_cases h8 : startsWithL l (cs "https://") = true
  · exact Or.inl ⟨by simp [h8], h8⟩
  · rw [Bool.not_eq_true] at h8
    by_cases h7 : startsWithL l (cs "http://") = true
    · exact Or.inr ⟨by simp [h8, h7], h7, h8⟩
    · rw [Bool.not_eq_true] at h7
      simp [h8, h7] at h

/-- A positive match means: a prefix of length `urlPrefixLen l + 1`
exists, consists of non-whitespace characters only, and the prefix
length is 7 or 8. -/
theorem urlMatch_prefix_nonspace (l : List Char) (h : 0 < urlMatchLen l) :
    (urlPrefixLen l = 7 ∨ urlPrefixLen l = 8) ∧
      (l.take (urlPrefixLen l + 1)).length = urlPrefixLen l + 1 ∧
      (∀ x ∈ l.take (urlPrefixLen l + 1), isSpace x = false) := by
  unfold urlMatchLen at h
  by_cases hp : urlPrefixLen l = 0
  · simp [hp] at h
  by_cases hr : ((l.drop (urlPrefixLen l)).takeWhile (fun c => !isSpace c)).length = 0
  · simp [hp, hr] at h
  -- the first character after the prefix exists and is non-whitespace
  obtain ⟨c, t, hct, hc⟩ : ∃ c t, l.drop (urlPrefixLen l) = c :: t ∧ isSpace c = false := by
    cases hd : l.drop (urlPrefixLen l) with
    | nil => rw [hd] at hr; simp [List.takeWhile] at hr
    | cons c t =>
      refine ⟨c, t, rfl, ?_⟩
      rw [hd] at hr
      by_cases hc : isSpace c
      · simp [List.takeWhile, hc] at hr
      · simpa using hc
  have htake : l.take (urlPrefixLen l + 1)
      = l.take (urlPrefixLen l) ++ [c] := by
    rw [List.take_add, hct]
    rfl
  rcases urlPrefixLen_cases l hp with ⟨h8, hs⟩ | ⟨h7, hs, _⟩
  · rw [startsWithL_https_iff] at hs
    have hs8 : l.take (urlPrefixLen l) = cs "https://" := by rw [h8]; exact hs
    refine ⟨Or.inr h8, ?_, ?_⟩
    · rw [htake, hs8, h8]; rfl
    · intro x hx
      rw [htake, hs8] at hx
      rcases List.mem_append.mp hx with hx | hx
      · exact (by decide : ∀ y ∈ cs "https://", isSpace y = false) x hx
      · rcases List.mem_singleton.mp hx with rfl; exact hc
  · rw [startsWithL_http_iff] at hs
    have hs7 : l.take (urlPrefixLen l) = cs "http://" := by rw [h7]; exact hs
    refine ⟨Or.inl h7, ?_, ?_⟩
    · rw [htake, hs7, h7]; rfl
    · intro x hx
      rw [htake, hs7] at hx
      rcases List.mem_append.mp hx with hx | hx
      · exact (by decide : ∀ y ∈ cs "http://", isSpace y = false) x hx
      · rcases List.mem_singleton.mp hx with rfl; exact hc

/-- A match of the URL regex is stable under replacing the list by one
that agrees on the first `urlPrefixLen + 1` characters. -/
theorem urlMatch_transfer (l l' : List Char)
    (heq : l.take (urlPrefixLen l + 1) = l'.take (urlPrefixLen l + 1))
    (h : 0 < urlMatchLen l) : 0 < urlMatchLen l' := by
  unfold urlMatchLen at h
  by_cases hp : urlPrefixLen l = 0
  · simp [hp] at h
  by_cases hr : ((l.drop (urlPrefixLen l)).takeWhile (fun c => !isSpace c)).length = 0
  · simp [hp, hr] at h
  obtain ⟨c, t, hct, hc⟩ : ∃ c t, l.drop (urlPrefixLen l) = c :: t ∧ isSpace c = false := by
    cases hd : l.drop (urlPrefixLen l) with
    | nil => rw [hd] at hr; simp [List.takeWhile] at hr
    | cons c t =>
      refine ⟨c, t, rfl, ?_⟩
      rw [hd] at hr
      by_cases hc : isSpace c
      · simp [List.takeWhile, hc] at hr
      · simpa using hc
  -- the prefixes of length `urlPrefixLen l` agree
  have htk : l.take (urlPrefixLen l) = l'.take (urlPrefixLen l) := by
    have h1 : l.take (urlPrefixLen l) = (l.take (urlPrefixLen l + 1)).take (urlPrefixLen l) := by
      rw [List.take_take, min_eq_left (Nat.le_succ _)]
    have h2 : l'.take (urlPrefixLen l) = (l'.take (urlPrefixLen l + 1)).take (urlPrefixLen l) := by
      rw [List.take_take, min_eq_left (Nat.le_succ _)]
    rw [h1, h2, heq]
  -- hence the same prefix alternative matches on `l'`
  have hp' : urlPrefixLen l' = urlPrefixLen l := by
    rcases urlPrefixLen_cases l hp with ⟨h8, hs⟩ | ⟨h7, hs, _⟩
    · rw [startsWithL_https_iff] at hs
      have hs' : startsWithL l' (cs "https://") = true := by
        rw [startsWithL_https_iff, ← h8, ← htk, h8]
        exact hs
      rw [h8]
      unfold urlPrefixLen
      rw [hs']
      simp
    · rw [startsWithL_http_iff] at hs
      have hs' : startsWithL l' (cs "http://") = true := by
        rw [startsWithL_http_iff, ← h7, ← htk, h7]
        exact hs
      have hns' : startsWithL l' (cs "https://") = false := not_https_of_http l' hs'
      rw [h7]
      unfold urlPrefixLen
      rw [hns', hs']
      simp
  -- the character after the prefix agrees and is non-whitespace
  have hget : l'.get? (urlPrefixLen l) = some c := by
    have h1 : (l.take (urlPrefixLen l + 1)).get? (urlPrefixLen l) = l.get? (urlPrefixLen l) :=
      List.get?_take (Nat.lt_succ_self _)
    have h2 : (l'.take (urlPrefixLen l + 1)).get? (urlPrefixLen l) = l'.get? (urlPrefixLen l) :=
      List.get?_take (Nat.lt_succ_self _)
    have h3 : l.get? (urlPrefixLen l) = some c := by
      have h4 := List.get?_drop l (urlPrefixLen l) 0
      rw [Nat.add_zero] at h4
      rw [← h4, hct]
      rfl
    rw [← h2, ← heq, h1, h3]
  obtain ⟨t', hct'⟩ : ∃ t', l'.drop (urlPrefixLen l) = c :: t' := by
    have hd0 : (l'.drop (urlPrefixLen l)).get? 0 = some c := by
      have h4 := List.get?_drop l' (urlPrefixLen l) 0
      rw [Nat.add_zero] at h4
      rw [h4, hget]
    cases hd : l'.drop (urlPrefixLen l) with
    | nil =>
      rw [hd] at hd0
      simp at hd0
    | cons x xs =>
      rw [hd] at hd0
      simp at hd0
      exact ⟨xs, by rw [hd0]⟩
  unfold urlMatchLen
  dsimp only
  rw [hp', hct']
  have hpne : ¬(urlPrefixLen l = 0) := hp
  rw [if_neg hpne]
  simp [List.takeWhile, hc]

theorem removeUrlsAux_nil (fuel : Nat) : removeUrlsAux fuel [] = [] := by
  cases fuel <;> rfl

/-- A whitespace character cannot start a URL match. -/
theorem urlMatchLen_zero_of_space_head (c : Char) (t : List Char)
    (hc : isSpace c = true) : urlMatchLen (c :: t) = 0 := by
  have hch : c ≠ 'h' := by
    intro hceq
    rw [hceq] at hc
    exact absurd hc (by decide)
  have hpre : urlPrefixLen (c :: t) = 0 := by
    have h8 : startsWithL (c :: t) (cs "https://") = false := by
      cases hq : startsWithL (c :: t) (cs "https://") with
      | false => rfl
      | true =>
        rw [startsWithL_https_iff] at hq
        rw [List.take_succ_cons] at hq
        exact absurd (List.head_eq_of_cons_eq hq) hch
    have h7 : startsWithL (c :: t) (cs "http://") = false := by
      cases hq : startsWithL (c :: t) (cs "http://") with
      | false => rfl
      | true =>
        rw [startsWithL_http_iff] at hq
        rw [List.take_succ_cons] at hq
        exact absurd (List.head_eq_of_cons_eq hq) hch
    simp [urlPrefixLen, h8, h7]
  simp [urlMatchLen, hpre]

theorem dropWhile_shape (q : Char → Bool) (m : List Char) :
    m.dropWhile q = [] ∨ ∃ d t, m.dropWhile q = d :: t ∧ q d = false := by
  induction m with
  | nil => exact Or.inl rfl
  | cons c t ih =>
    by_cases hq : q c = true
    · rw [List.dropWhile_cons_of_pos hq]
      exact ih
    · rw [Bool.not_eq_true] at hq
      rw [List.dropWhile_cons_of_neg (by simp [hq])]
      exact Or.inr ⟨c, t, rfl, hq⟩

theorem drop_takeWhile_len (q : Char → Bool) (m : List Char) :
    m.drop (m.takeWhile q).length = m.dropWhile q := by
  induction m with
  | nil => rfl
  | cons c t ih =>
    by_cases hq : q c = true
    · rw [List.takeWhile_cons_of_pos hq, List.dropWhile_cons_of_pos hq,
        List.length_cons, List.drop_succ_cons]
      exact ih
    · rw [Bool.not_eq_true] at hq
      rw [List.takeWhile_cons_of_neg (by simp [hq]),
        List.dropWhile_cons_of_neg (by simp [hq])]
      rfl

/-- What remains after deleting a URL match is empty or starts with
whitespace (the greedy `[^\s]+` consumed the whole non-whitespace run). -/
theorem urlMatchLen_drop (l : List Char) (h : 0 < urlMatchLen l) :
    l.drop (urlMatchLen l) = [] ∨
      ∃ d t, l.drop (urlMatchLen l) = d :: t ∧ isSpace d = true := by
  by_cases hp : urlPrefixLen l = 0
  · simp [urlMatchLen, hp] at h
  by_cases hr : ((l.drop (urlPrefixLen l)).takeWhile (fun c => !isSpace c)).length = 0
  · simp [urlMatchLen, hp, hr] at h
  have hn : urlMatchLen l = urlPrefixLen l +
      ((l.drop (urlPrefixLen l)).takeWhile (fun c => !isSpace c)).length := by
    simp [urlMatchLen, hp, hr]
  rw [hn, ← List.drop_drop, drop_takeWhile_len]
  rcases dropWhile_shape (fun c => !isSpace c) (l.drop (urlPrefixLen l)) with hc | ⟨d, t, hdt, hd⟩
  · exact Or.inl hc
  · refine Or.inr ⟨d, t, hdt, ?_⟩
    simpa using hd

/-- If an all-non-whitespace prefix of `X` always equals the same-length
prefix of `rest`, then a URL match at the head of `c :: X` transfers to
`c :: rest`. -/
theorem urlMatch_head_transfer (c : Char) (X rest : List Char)
    (hpp : ∀ k, (X.take k).length = k →
      (∀ x ∈ X.take k, isSpace x = false) → X.take k = rest.take k)
    (h : 0 < urlMatchLen (c :: X)) : 0 < urlMatchLen (c :: rest) := by
  obtain ⟨_, hlen, hns⟩ := urlMatch_prefix_nonspace (c :: X) h
  have h1 : (c :: X).take (urlPrefixLen (c :: X) + 1)
      = c :: X.take (urlPrefixLen (c :: X)) := List.take_succ_cons
  have hlen' : (X.take (urlPrefixLen (c :: X))).length = urlPrefixLen (c :: X) := by
    rw [h1] at hlen
    simpa using hlen
  have hns' : ∀ x ∈ X.take (urlPrefixLen (c :: X)), isSpace x = false := by
    intro x hx
    exact hns x (by rw [h1]; exact List.mem_cons_of_mem c hx)
  have heq : (c :: X).take (urlPrefixLen (c :: X) + 1)
      = (c :: rest).take (urlPrefixLen (c :: X) + 1) := by
    rw [h1, List.take_succ_cons, hpp _ hlen' hns']
  exact urlMatch_transfer (c :: X) (c :: rest) heq h

/-- The two fundamental properties of `removeUrlsAux`: the output
contains no URL match, and any all-non-whitespace prefix of the output is
a literal prefix of the input (deletions happen only at positions whose
remainder starts with whitespace). -/
theorem removeUrlsAux_good (fuel : Nat) :
    ∀ l : List Char, l.length ≤ fuel →
      containsUrl (removeUrlsAux fuel l) = false ∧
      (∀ k, ((removeUrlsAux fuel l).take k).length = k →
        (∀ x ∈ (removeUrlsAux fuel l).take k, isSpace x = false) →
        (removeUrlsAux fuel l).take k = l.take k) := by
  induction fuel with
  | zero =>
    intro l _
    refine ⟨rfl, ?_⟩
    intro k hk _
    have hk0 : k = 0 := by simp [removeUrlsAux] at hk; omega
    subst hk0
    simp
  | succ f ih =>
    intro l hl
    cases l with
    | nil =>
      refine ⟨rfl, ?_⟩
      intro k hk _
      have hk0 : k = 0 := by simp [removeUrlsAux_nil] at hk; omega
      subst hk0
      simp
    | cons c rest =>
      by_cases hmatch : 0 < urlMatchLen (c :: rest)
      · have hred : removeUrlsAux (f + 1) (c :: rest)
            = removeUrlsAux f ((c :: rest).drop (urlMatchLen (c :: rest))) := by
          simp [removeUrlsAux, hmatch]
        have hlen' : ((c :: rest).drop (urlMatchLen (c :: rest))).length ≤ f := by
          rw [List.length_drop]
          have h1 : 1 ≤ urlMatchLen (c :: rest) := hmatch
          have h2 : (c :: rest).length ≤ f + 1 := hl
          omega
        obtain ⟨ihc, ihp⟩ := ih _ hlen'
        refine ⟨by rw [hred]; exact ihc, ?_⟩
        intro k hk hns
        rw [hred] at hk hns ⊢
        rcases urlMatchLen_drop (c :: rest) hmatch with hnil | ⟨d, t, hdt, hdsp⟩
        · rw [hnil, removeUrlsAux_nil] at hk hns ⊢
          have hk0 : k = 0 := by simp at hk; omega
          subst hk0
          simp
        · rw [hdt] at hk hns ⊢
          have hf1 : 1 ≤ f := by
            rw [hdt] at hlen'
            have := hlen'
            simp at this
            omega
          obtain ⟨f', rfl⟩ : ∃ f', f = f' + 1 := ⟨f - 1, by omega⟩
          have hstep : removeUrlsAux (f' + 1) (d :: t) = d :: removeUrlsAux f' t := by
            have hz : ¬(0 < urlMatchLen (d :: t)) := by
              rw [urlMatchLen_zero_of_space_head d t hdsp]
              exact lt_irrefl 0
            simp [removeUrlsAux, hz]
          rw [hstep] at hk hns ⊢
          cases k with
          | zero => simp
          | succ k' =>
            exfalso
            have hd : d ∈ (d :: removeUrlsAux f' t).take (k' + 1) := by
              rw [List.take_succ_cons]
              exact List.mem_cons_self d _
            have := hns d hd
            rw [hdsp] at this
            cases this
      · have hred : removeUrlsAux (f + 1) (c :: rest) = c :: removeUrlsAux f rest := by
          simp [removeUrlsAux, hmatch]
        have hlen' : rest.length ≤ f := by
          have : (c :: rest).length ≤ f + 1 := hl
          simpa using this
        obtain ⟨ihc, ihp⟩ := ih rest hlen'
        constructor
        · rw [hred]
          show (decide (0 < urlMatchLen (c :: removeUrlsAux f rest))
            || containsUrl (removeUrlsAux f rest)) = false
          rw [ihc, Bool.or_false, decide_eq_false_iff_not]
          intro hcm
          exact hmatch (urlMatch_head_transfer c (removeUrlsAux f rest) rest ihp hcm)
        · intro k hk hns
          rw [hred] at hk hns ⊢
          cases k with
          | zero => simp
          | succ k' =>
            rw [List.take_succ_cons] at hk hns ⊢
            have hk' : ((removeUrlsAux f rest).take k').length = k' := by
              simpa using hk
            have hns' : ∀ x ∈ (removeUrlsAux f rest).take k', isSpace x = false :=
              fun x hx => hns x (List.mem_cons_of_mem c hx)
            rw [ihp k' hk' hns', List.take_succ_cons]

/-- The output of `removeUrls` contains no URL match. -/
theorem removeUrls_noUrl (l : List Char) : containsUrl (removeUrls l) = false :=
  (removeUrlsAux_good l.length l (le_refl _)).1

/-- Whitespace collapsing (started outside a whitespace run) also has the
literal-prefix property on all-non-whitespace prefixes. -/
theorem collapseAux_false_agrees (l : List Char) :
    ∀ k, ((collapseAux false l).take k).length = k →
      (∀ x ∈ (collapseAux false l).take k, isSpace x = false) →
      (collapseAux false l).take k = l.take k := by
  induction l with
  | nil =>
    intro k hk _
    have hk0 : k = 0 := by simp [collapseAux] at hk; omega
    subst hk0
    simp
  | cons c rest ih =>
    intro k hk hns
    by_cases hc : isSpace c = true
    · have hred : collapseAux false (c :: rest) = ' ' :: collapseAux true rest := by
        simp [collapseAux, hc]
      rw [hred] at hk hns ⊢
      cases k with
      | zero => simp
      | succ k' =>
        exfalso
        have hmem : (' ' : Char) ∈ (' ' :: collapseAux true rest).take (k' + 1) := by
          rw [List.take_succ_cons]
          exact List.mem_cons_self _ _
        have := hns ' ' hmem
        exact absurd this (by decide)
    · rw [Bool.not_eq_true] at hc
      have hred : collapseAux false (c :: rest) = c :: collapseAux false rest := by
        simp [collapseAux, hc]
      rw [hred] at hk hns ⊢
      cases k with
      | zero => simp
      | succ k' =>
        rw [List.take_succ_cons] at hk hns ⊢
        have hk' : ((collapseAux false rest).take k').length = k' := by simpa using hk
        have hns' : ∀ x ∈ (collapseAux false rest).take k', isSpace x = false :=
          fun x hx => hns x (List.mem_cons_of_mem c hx)
        rw [ih k' hk' hns', List.take_succ_cons]

/-- Whitespace collapsing introduces no URL match. -/
theorem collapseAux_noUrl (l : List Char) :
    ∀ b, containsUrl l = false → containsUrl (collapseAux b l) = false := by
  induction l with
  | nil => intro b _; cases b <;> rfl
  | cons c rest ih =>
    intro b h
    have h1 : ¬0 < urlMatchLen (c :: rest) := by
      intro hc
      rw [show containsUrl (c :: rest)
        = (decide (0 < urlMatchLen (c :: rest)) || containsUrl rest) from rfl] at h
      simp [hc] at h
    have h2 : containsUrl rest = false := by
      rw [show containsUrl (c :: rest)
        = (decide (0 < urlMatchLen (c :: rest)) || containsUrl rest) from rfl] at h
      simp at h
      exact h.2
    by_cases hc : isSpace c = true
    · cases b with
      | true =>
        have hred : collapseAux true (c :: rest) = collapseAux true rest := by
          simp [collapseAux, hc]
        rw [hred]
        exact ih true h2
      | false =>
        have hred : collapseAux false (c :: rest) = ' ' :: collapseAux true rest := by
          simp [collapseAux, hc]
        rw [hred]
        show (decide (0 < urlMatchLen (' ' :: collapseAux true rest))
          || containsUrl (collapseAux true rest)) = false
        rw [ih true h2, Bool.or_false, decide_eq_false_iff_not]
        rw [urlMatchLen_zero_of_space_head ' ' _ (by decide)]
        exact lt_irrefl 0
    · rw [Bool.not_eq_true] at hc
      have hred : collapseAux b (c :: rest) = c :: collapseAux false rest := by
        cases b <;> simp [collapseAux, hc]
      rw [hred]
      show (decide (0 < urlMatchLen (c :: collapseAux false rest))
        || containsUrl (collapseAux false rest)) = false
      rw [ih false h2, Bool.or_false, decide_eq_false_iff_not]
      intro hcm
      exact h1 (urlMatch_head_transfer c (collapseAux false rest) rest
        (collapseAux_false_agrees rest) hcm)

/-- Collapsed output never contains two consecutive whitespace
characters, and collapsing inside a run never emits a leading space. -/
theorem collapseAux_shape (l : List Char) :
    (hasDoubleWs (collapseAux true l) = false ∧
      headIsSpace (collapseAux true l) = false) ∧
    hasDoubleWs (collapseAux false l) = false := by
  induction l with
  | nil => exact ⟨⟨rfl, rfl⟩, rfl⟩
  | cons c rest ih =>
    obtain ⟨⟨ihT, ihTh⟩, ihF⟩ := ih
    by_cases hc : isSpace c = true
    · have hredT : collapseAux true (c :: rest) = collapseAux true rest := by
        simp [collapseAux, hc]
      have hredF : collapseAux false (c :: rest) = ' ' :: collapseAux true rest := by
        simp [collapseAux, hc]
      refine ⟨⟨by rw [hredT]; exact ihT, by rw [hredT]; exact ihTh⟩, ?_⟩
      rw [hredF]
      cases hX : collapseAux true rest with
      | nil => rfl
      | cons x xs =>
        show (isSpace ' ' && isSpace x || hasDoubleWs (x :: xs)) = false
        have hx : isSpace x = false := by
          rw [hX] at ihTh
          exact ihTh
        rw [hX] at ihT
        rw [hx, ihT]
        simp
    · rw [Bool.not_eq_true] at hc
      have hred : ∀ b, collapseAux b (c :: rest) = c :: collapseAux false rest := by
        intro b
        cases b <;> simp [collapseAux, hc]
      have hdd : hasDoubleWs (c :: collapseAux false rest) = false := by
        cases hX : collapseAux false rest with
        | nil => rfl
        | cons x xs =>
          show (isSpace c && isSpace x || hasDoubleWs (x :: xs)) = false
          rw [hX] at ihF
          rw [hc, ihF]
          simp
      refine ⟨⟨by rw [hred true]; exact hdd, ?_⟩, by rw [hred false]; exact hdd⟩
      rw [hred true]
      show isSpace c = false
      exact hc

/-- A URL match at the head survives appending on the right. -/
theorem urlMatchLen_append_pos (l t : List Char) (h : 0 < urlMatchLen l) :
    0 < urlMatchLen (l ++ t) := by
  obtain ⟨_, hlen, _⟩ := urlMatch_prefix_nonspace l h
  have hle : urlPrefixLen l + 1 ≤ l.length := by
    rw [List.length_take] at hlen
    omega
  have heq : l.take (urlPrefixLen l + 1) = (l ++ t).take (urlPrefixLen l + 1) :=
    (List.take_append_of_le_length hle).symm
  exact urlMatch_transfer l (l ++ t) heq h

theorem containsUrl_append_left (A t : List Char) (h : containsUrl A = true) :
    containsUrl (A ++ t) = true := by
  induction A with
  | nil => cases h
  | cons c rest ih =>
    rw [show containsUrl (c :: rest)
      = (decide (0 < urlMatchLen (c :: rest)) || containsUrl rest) from rfl] at h
    rw [List.cons_append]
    show (decide (0 < urlMatchLen (c :: (rest ++ t))) || containsUrl (rest ++ t)) = true
    rcases Bool.or_eq_true_iff.mp h with hh | hh
    · have := urlMatchLen_append_pos (c :: rest) t (by simpa using hh)
      rw [List.cons_append] at this
      simp [this]
    · rw [ih hh]
      simp

/-- Freeness of URL matches restricts to prefixes. -/
theorem containsUrl_of_append (A t : List Char)
    (h : containsUrl (A ++ t) = false) : containsUrl A = false := by
  cases hc : containsUrl A with
  | false => rfl
  | true => rw [containsUrl_append_left A t hc] at h; cases h

theorem containsUrl_tail (c : Char) (rest : List Char)
    (h : containsUrl (c :: rest) = false) : containsUrl rest = false := by
  rw [show containsUrl (c :: rest)
    = (decide (0 < urlMatchLen (c :: rest)) || containsUrl rest) from rfl] at h
  exact (Bool.or_eq_false_iff.mp h).2

theorem containsUrl_dropWhile (q : Char → Bool) (l : List Char)
    (h : containsUrl l = false) : containsUrl (l.dropWhile q) = false := by
  induction l with
  | nil => exact h
  | cons c rest ih =>
    by_cases hq : q c = true
    · rw [List.dropWhile_cons_of_pos hq]
      exact ih (containsUrl_tail c rest h)
    · rw [Bool.not_eq_true] at hq
      rw [List.dropWhile_cons_of_neg (by simp [hq])]
      exact h

theorem hasDoubleWs_tail (c : Char) (rest : List Char)
    (h : hasDoubleWs (c :: rest) = false) : hasDoubleWs rest = false := by
  cases rest with
  | nil => rfl
  | cons b bs =>
    rw [show hasDoubleWs (c :: b :: bs)
      = ((isSpace c && isSpace b) || hasDoubleWs (b :: bs)) from rfl] at h
    exact (Bool.or_eq_false_iff.mp h).2

theorem hasDoubleWs_append_left (A t : List Char) (h : hasDoubleWs A = true) :
    hasDoubleWs (A ++ t) = true := by
  induction A with
  | nil => cases h
  | cons a A' ih =>
    cases A' with
    | nil => cases h
    | cons b rest =>
      rw [show hasDoubleWs (a :: b :: rest)
        = ((isSpace a && isSpace b) || hasDoubleWs (b :: rest)) from rfl] at h
      rw [List.cons_append]
      show ((isSpace a && isSpace b) || hasDoubleWs (b :: rest ++ t)) = true
      rcases Bool.or_eq_true_iff.mp h with hh | hh
      · simp [hh]
      · rw [show (b :: rest ++ t) = ((b :: rest) ++ t) from rfl, ih hh]
        simp

theorem hasDoubleWs_of_append (A t : List Char)
    (h : hasDoubleWs (A ++ t) = false) : hasDoubleWs A = false := by
  cases hc : hasDoubleWs A with
  | false => rfl
  | true => rw [hasDoubleWs_append_left A t hc] at h; cases h

theorem hasDoubleWs_dropWhile (q : Char → Bool) (l : List Char)
    (h : hasDoubleWs l = false) : hasDoubleWs (l.dropWhile q) = false := by
  induction l with
  | nil => exact h
  | cons c rest ih =>
    by_cases hq : q c = true
    · rw [List.dropWhile_cons_of_pos hq]
      exact ih (hasDoubleWs_tail c rest h)
    · rw [Bool.not_eq_true] at hq
      rw [List.dropWhile_cons_of_neg (by simp [hq])]
      exact h

theorem headIsSpace_dropWhile_isSpace (l : List Char) :
    headIsSpace (l.dropWhile isSpace) = false := by
  induction l with
  | nil => rfl
  | cons c rest ih =>
    by_cases hc : isSpace c = true
    · rw [List.dropWhile_cons_of_pos hc]
      exact ih
    · rw [Bool.not_eq_true] at hc
      rw [List.dropWhile_cons_of_neg (by simp [hc])]
      exact hc

theorem headIsSpace_of_append (A t : List Char)
    (h : headIsSpace (A ++ t) = false) : headIsSpace A = false := by
  cases A with
  | nil => rfl
  | cons c rest => exact h

/-- `trimRight l` is a prefix of `l`. -/
theorem trimRight_append (l : List Char) : ∃ t, trimRight l ++ t = l := by
  refine ⟨(l.reverse.takeWhile isSpace).reverse, ?_⟩
  unfold trimRight
  rw [← List.reverse_append, List.takeWhile_append_dropWhile, List.reverse_reverse]

theorem lastIsSpace_trimRight (l : List Char) :
    lastIsSpace (trimRight l) = false := by
  unfold lastIsSpace trimRight
  rw [List.reverse_reverse]
  exact headIsSpace_dropWhile_isSpace l.reverse

/-! ## Helper lemmas: the classification scan -/

/-- The final verdict of `classifyWithAI` is hateful exactly when the scan
ends with the hateful flag set and the running maximum meets the
threshold. -/
theorem classifyWithAI_hateful_iff (cfg : ModelConfig) (t : ℚ) (text : List Char)
    (result : List (List Char × ℚ)) :
    ((classifyWithAI cfg t text result).label = Label.hateful) ↔
      ((scanFinal cfg result).isHateful = true ∧
        t ≤ (scanFinal cfg result).maxConfidence) := by
  unfold classifyWithAI
  split
  next h => simpa using h
  next h =>
    constructor
    · intro hlab
      exact absurd hlab (by simp)
    · intro hc
      exact absurd hc (by simpa using h)

/-- Each scan step either keeps the running maximum or replaces it by the
score of the pair just examined. -/
theorem scanStep_maxConfidence_cases (cfg : ModelConfig) (st : ScanState)
    (p : List Char × ℚ) :
    (scanStep cfg st p).maxConfidence = st.maxConfidence ∨
      (scanStep cfg st p).maxConfidence = p.2 := by
  unfold scanStep
  dsimp only
  split <;> split <;> simp

/-- The scan keeps the running maximum inside `[0, 1]` when all scores
are probabilities. -/
theorem scan_maxConfidence_bounds (cfg : ModelConfig) (result : List (List Char × ℚ))
    (st : ScanState) (h : ∀ p ∈ result, 0 ≤ p.2 ∧ p.2 ≤ 1)
    (hst : 0 ≤ st.maxConfidence ∧ st.maxConfidence ≤ 1) :
    0 ≤ (result.foldl (scanStep cfg) st).maxConfidence ∧
      (result.foldl (scanStep cfg) st).maxConfidence ≤ 1 := by
  induction result generalizing st with
  | nil => exact hst
  | cons p rest ih =>
    simp only [List.foldl_cons]
    have hb : 0 ≤ (scanStep cfg st p).maxConfidence ∧
        (scanStep cfg st p).maxConfidence ≤ 1 := by
      rcases scanStep_maxConfidence_cases cfg st p with hc | hc
      · rw [hc]; exact hst
      · rw [hc]; exact h p (List.mem_cons_self p rest)
    exact ih (scanStep cfg st p) (fun q hq => h q (List.mem_cons_of_mem p hq)) hb

/-- `scan_maxConfidence_bounds` specialised to the whole scan. -/
theorem scanFinal_maxConfidence_bounds (cfg : ModelConfig)
    (result : List (List Char × ℚ)) (h : ∀ p ∈ result, 0 ≤ p.2 ∧ p.2 ≤ 1) :
    0 ≤ (scanFinal cfg result).maxConfidence ∧
      (scanFinal cfg result).maxConfidence ≤ 1 :=
  scan_maxConfidence_bounds cfg result initScan h (by decide)

/-! ## C1: the verdict rule of `classifyWithAI` -/

theorem listMaxQ_map_snd (l : List (List Char × ℚ)) :
    listMaxQ (l.map (·.2)) = foldMaxScores 0 l := by
  simp [listMaxQ, foldMaxScores, List.foldl_map]

theorem le_foldMaxScores (a : ℚ) (l : List (List Char × ℚ)) :
    a ≤ foldMaxScores a l := by
  induction l generalizing a with
  | nil => exact le_refl a
  | cons p rest ih =>
    exact le_trans (le_max_left a p.2) (ih (max a p.2))

/-- Folding the maximum from a non-negative start is the maximum of the
start and the fold from 0, when all scores are non-negative. -/
theorem foldMaxScores_eq_max (a : ℚ) (l : List (List Char × ℚ)) (ha : 0 ≤ a)
    (hl : ∀ p ∈ l, 0 ≤ p.2) :
    foldMaxScores a l = max a (foldMaxScores 0 l) := by
  induction l generalizing a with
  | nil => simpa [foldMaxScores] using (max_eq_left ha).symm
  | cons p rest ih =>
    have hp : 0 ≤ p.2 := hl p (List.mem_cons_self p rest)
    have hrest : ∀ q ∈ rest, 0 ≤ q.2 := fun q hq => hl q (List.mem_cons_of_mem p hq)
    have h1 : foldMaxScores a (p :: rest) = foldMaxScores (max a p.2) rest := by
      simp [foldMaxScores]
    have h2 : foldMaxScores 0 (p :: rest) = foldMaxScores p.2 rest := by
      simp [foldMaxScores, max_eq_right hp]
    rw [h1, h2, ih (max a p.2) (le_trans ha (le_max_left a p.2)) hrest,
      ih p.2 hp hrest, max_assoc]

/-- A scan step on a pair whose label matches only the normal set, from a
state whose hateful flag is clear: the flag stays clear and the running
maximum becomes the max with the score. -/
theorem scanStep_normal_only (cfg : ModelConfig) (st : ScanState) (p : List Char × ℚ)
    (hm : matchesNormal cfg (lowerL p.1) = true)
    (hnm : matchesHateful cfg (lowerL p.1) = false) (hf : st.isHateful = false) :
    (scanStep cfg st p).isHateful = false ∧
      (scanStep cfg st p).maxConfidence = max st.maxConfidence p.2 := by
  by_cases hlt : st.maxConfidence < p.2
  · unfold scanStep; simp [hnm, hm, hf, hlt, max_eq_right hlt.le]
  · unfold scanStep; simp [hnm, hm, hf, hlt, max_eq_left (not_lt.mp hlt)]

/-- A scan step on a pair whose label matches only the hateful set: the
running maximum becomes the max with the score, and the hateful flag is
set exactly when the score strictly exceeds the old running maximum. -/
theorem scanStep_hateful_only (cfg : ModelConfig) (st : ScanState) (p : List Char × ℚ)
    (hm : matchesHateful cfg (lowerL p.1) = true)
    (hnm : matchesNormal cfg (lowerL p.1) = false) :
    (scanStep cfg st p).maxConfidence = max st.maxConfidence p.2 ∧
      (scanStep cfg st p).isHateful =
        (st.isHateful || decide (st.maxConfidence < p.2)) := by
  by_cases hlt : st.maxConfidence < p.2
  · unfold scanStep; simp [hnm, hm, hlt, max_eq_right hlt.le]
  · unfold scanStep; simp [hnm, hm, hlt, max_eq_left (not_lt.mp hlt)]

/-- Scanning a block of normal-only pairs from a non-hateful state keeps
the flag clear and folds the maximum. -/
theorem scan_normalBlock (cfg : ModelConfig) (l : List (List Char × ℚ))
    (st : ScanState)
    (h : ∀ p ∈ l, matchesNormal cfg (lowerL p.1) = true ∧
      matchesHateful cfg (lowerL p.1) = false)
    (hf : st.isHateful = false) :
    (l.foldl (scanStep cfg) st).isHateful = false ∧
      (l.foldl (scanStep cfg) st).maxConfidence = foldMaxScores st.maxConfidence l := by
  induction l generalizing st with
  | nil => exact ⟨hf, rfl⟩
  | cons p rest ih =>
    obtain ⟨hm, hnm⟩ := h p (List.mem_cons_self p rest)
    obtain ⟨hstep1, hstep2⟩ := scanStep_normal_only cfg st p hm hnm hf
    obtain ⟨ih1, ih2⟩ := ih (scanStep cfg st p)
      (fun q hq => h q (List.mem_cons_of_mem p hq)) hstep1
    refine ⟨by simpa using ih1, ?_⟩
    have : foldMaxScores st.maxConfidence (p :: rest) =
        foldMaxScores (max st.maxConfidence p.2) rest := by
      simp [foldMaxScores]
    rw [List.foldl_cons, ih2, hstep2, this]

/-- Scanning a block of hateful-only pairs folds the maximum, and sets
the hateful flag exactly when some score strictly exceeds the running
maximum the block started from. -/
theorem scan_hatefulBlock (cfg : ModelConfig) (l : List (List Char × ℚ))
    (st : ScanState)
    (h : ∀ p ∈ l, matchesHateful cfg (lowerL p.1) = true ∧
      matchesNormal cfg (lowerL p.1) = false) :
    (l.foldl (scanStep cfg) st).maxConfidence = foldMaxScores st.maxConfidence l ∧
      (l.foldl (scanStep cfg) st).isHateful =
        (st.isHateful ||
          decide (st.maxConfidence < foldMaxScores st.maxConfidence l)) := by
  induction l generalizing st with
  | nil => simp [foldMaxScores]
  | cons p rest ih =>
    obtain ⟨hm, hnm⟩ := h p (List.mem_cons_self p rest)
    obtain ⟨hstep1, hstep2⟩ := scanStep_hateful_only cfg st p hm hnm
    obtain ⟨ih1, ih2⟩ := ih (scanStep cfg st p)
      (fun q hq => h q (List.mem_cons_of_mem p hq))
    have hfold : foldMaxScores st.maxConfidence (p :: rest) =
        foldMaxScores (max st.maxConfidence p.2) rest := by
      simp [foldMaxScores]
    constructor
    · rw [List.foldl_cons, ih1, hstep1, hfold]
    · rw [List.foldl_cons, ih2, hstep2, hstep1, hfold]
      have hle : max st.maxConfidence p.2 ≤
          foldMaxScores (max st.maxConfidence p.2) rest :=
        le_foldMaxScores _ rest
      cases hsh : st.isHateful with
      | true => simp
      | false =>
        simp only [Bool.false_or, Bool.or_eq_true, decide_eq_true_eq]
        rw [Bool.or_comm, ← Bool.decide_or, decide_eq_decide]
        constructor
        · rintro (hc | hc)
          · exact lt_of_le_of_lt (le_max_left _ _) hc
          · exact lt_of_lt_of_le (lt_of_lt_of_le hc (le_max_right _ _)) hle
        · intro hc
          by_cases hp : st.maxConfidence < p.2
          · exact Or.inr hp
          · refine Or.inl ?_
            rwa [max_eq_left (not_lt.mp hp)] at hc ⊢

/-- C1 counterexample.  With the Twitter model, threshold 0.7 and the
model output `[(hate, 0.8), (normal, 0.9)]`, the maximum hateful score
0.8 is strictly below the maximum normal score 0.9, so the claimed rule
requires a normal verdict — but `classifyWithAI` returns hateful, because
the scan examines the hateful-labelled pair first and the normal-labelled
pair can then no longer clear the flag, whatever its score. -/
theorem classifyWithAI_spec_rule_counterexample :
    (classifyWithAI twitterModel (mkRat 7 10) (cs "example text")
      [(cs "hate", mkRat 4 5), (cs "normal", mkRat 9 10)]).label = Label.hateful ∧
    specMaxHateful twitterModel
      [(cs "hate", mkRat 4 5), (cs "normal", mkRat 9 10)] = mkRat 4 5 ∧
    specMaxNormal twitterModel
      [(cs "hate", mkRat 4 5), (cs "normal", mkRat 9 10)] = mkRat 9 10 ∧
    specHatefulVerdict twitterModel (mkRat 7 10)
      [(cs "hate", mkRat 4 5), (cs "normal", mkRat 9 10)] = false := by
  refine ⟨by decide, by decide, by decide, by decide⟩

/-- C1 amended.  The claimed max-per-super-label rule holds provided the
model output lists every normal-matching pair before every
hateful-matching pair and no label matches both label sets; in that case
the verdict is hateful iff `max(hatefulScores) > max(normalScores)` and
`max(hatefulScores) ≥ threshold`, with ties going to normal.  (In
general the scan is order-dependent — see the counterexample — because a
hateful-labelled pair that claims the running maximum can never be
overridden by a later normal-labelled pair.) -/
theorem classifyWithAI_maxRule_ordered (cfg : ModelConfig) (t : ℚ)
    (text : List Char) (nPairs hPairs : List (List Char × ℚ))
    (hn : ∀ p ∈ nPairs, matchesNormal cfg (lowerL p.1) = true ∧
      matchesHateful cfg (lowerL p.1) = false)
    (hh : ∀ p ∈ hPairs, matchesHateful cfg (lowerL p.1) = true ∧
      matchesNormal cfg (lowerL p.1) = false)
    (hpos : ∀ p ∈ nPairs ++ hPairs, 0 ≤ p.2) :
    ((classifyWithAI cfg t text (nPairs ++ hPairs)).label = Label.hateful) ↔
      (specMaxNormal cfg (nPairs ++ hPairs) < specMaxHateful cfg (nPairs ++ hPairs) ∧
        t ≤ specMaxHateful cfg (nPairs ++ hPairs)) := by
  have hposh : ∀ p ∈ hPairs, 0 ≤ p.2 := fun p hp =>
    hpos p (List.mem_append_right nPairs hp)
  -- the two spec-side maxima reduce to the per-block maxima
  have hfiltH : (nPairs ++ hPairs).filter (fun p => matchesHateful cfg (lowerL p.1))
      = hPairs := by
    rw [List.filter_append]
    have h1 : nPairs.filter (fun p => matchesHateful cfg (lowerL p.1)) = [] :=
      List.filter_eq_nil_iff.mpr (fun p hp => by simp [(hn p hp).2])
    have h2 : hPairs.filter (fun p => matchesHateful cfg (lowerL p.1)) = hPairs :=
      List.filter_eq_self.mpr (fun p hp => by simp [(hh p hp).1])
    rw [h1, h2, List.nil_append]
  have hfiltN : (nPairs ++ hPairs).filter (fun p => matchesNormal cfg (lowerL p.1))
      = nPairs := by
    rw [List.filter_append]
    have h1 : nPairs.filter (fun p => matchesNormal cfg (lowerL p.1)) = nPairs :=
      List.filter_eq_self.mpr (fun p hp => by simp [(hn p hp).1])
    have h2 : hPairs.filter (fun p => matchesNormal cfg (lowerL p.1)) = [] :=
      List.filter_eq_nil_iff.mpr (fun p hp => by simp [(hh p hp).2])
    rw [h1, h2, List.append_nil]
  have hSpecH : specMaxHateful cfg (nPairs ++ hPairs) = foldMaxScores 0 hPairs := by
    rw [specMaxHateful, hfiltH, listMaxQ_map_snd]
  have hSpecN : specMaxNormal cfg (nPairs ++ hPairs) = foldMaxScores 0 nPairs := by
    rw [specMaxNormal, hfiltN, listMaxQ_map_snd]
  -- the implementation side: scan the normal block, then the hateful block
  rw [classifyWithAI_hateful_iff]
  unfold scanFinal
  rw [List.foldl_append]
  obtain ⟨hfN, hmN⟩ := scan_normalBlock cfg nPairs initScan hn rfl
  obtain ⟨hmH, hfH⟩ := scan_hatefulBlock cfg hPairs (nPairs.foldl (scanStep cfg) initScan) hh
  have hinit : initScan.maxConfidence = 0 := rfl
  have hmN' : (nPairs.foldl (scanStep cfg) initScan).maxConfidence
      = foldMaxScores 0 nPairs := by rw [hmN, hinit]
  have hcomb : foldMaxScores (nPairs.foldl (scanStep cfg) initScan).maxConfidence hPairs
      = max (foldMaxScores 0 nPairs) (foldMaxScores 0 hPairs) := by
    rw [hmN', foldMaxScores_eq_max _ hPairs (le_foldMaxScores 0 nPairs) hposh]
  rw [hSpecH, hSpecN, hfH, hfN, hmH, hcomb, hmN']
  simp only [Bool.false_or, decide_eq_true_eq]
  constructor
  · rintro ⟨h1, h2⟩
    have hlt : foldMaxScores 0 nPairs < foldMaxScores 0 hPairs := by
      rcases lt_max_iff.mp h1 with hc | hc
      · exact absurd hc (lt_irrefl _)
      · exact hc
    rw [max_eq_right hlt.le] at h2
    exact ⟨hlt, h2⟩
  · rintro ⟨h1, h2⟩
    have hmaxeq : max (foldMaxScores 0 nPairs) (foldMaxScores 0 hPairs)
        = foldMaxScores 0 hPairs := max_eq_right h1.le
    exact ⟨by rw [hmaxeq]; exact h1, by rw [hmaxeq]; exact h2⟩

/-- Witness for the amended C1: the Twitter model on
`[(normal, 0.5), (hate, 0.8)]` with threshold 0.7. -/
theorem classifyWithAI_maxRule_ordered_witness :
    (∀ p ∈ [(cs "normal", mkRat 1 2)], matchesNormal twitterModel (lowerL p.1) = true ∧
      matchesHateful twitterModel (lowerL p.1) = false) ∧
    (∀ p ∈ [(cs "hate", mkRat 4 5)], matchesHateful twitterModel (lowerL p.1) = true ∧
      matchesNormal twitterModel (lowerL p.1) = false) ∧
    (∀ p ∈ [(cs "normal", mkRat 1 2)] ++ [(cs "hate", mkRat 4 5)], 0 ≤ p.2) ∧
    (((classifyWithAI twitterModel (mkRat 7 10) (cs "sample")
        ([(cs "normal", mkRat 1 2)] ++ [(cs "hate", mkRat 4 5)])).label = Label.hateful) ↔
      (specMaxNormal twitterModel ([(cs "normal", mkRat 1 2)] ++ [(cs "hate", mkRat 4 5)]) <
          specMaxHateful twitterModel ([(cs "normal", mkRat 1 2)] ++ [(cs "hate", mkRat 4 5)]) ∧
        mkRat 7 10 ≤
          specMaxHateful twitterModel ([(cs "normal", mkRat 1 2)] ++ [(cs "hate", mkRat 4 5)]))) :=
  ⟨by decide, by decide, by decide,
    classifyWithAI_maxRule_ordered twitterModel (mkRat 7 10) (cs "sample")
      [(cs "normal", mkRat 1 2)] [(cs "hate", mkRat 4 5)]
      (by decide) (by decide) (by decide)⟩

/-! ## C2: fail-safe default when the model is unavailable -/

/-- C2.  For every non-empty input text, when the model is not loaded
(Unloaded or Failed both have `isModelLoaded = false`), `classifyText`
returns exactly the fail-safe result — label normal, confidence 0.5 and
an explanation mentioning that the model is not available.  `classifyText`
is a total function, so no exception is possible. -/
theorem classifyText_failSafe (engine : EngineState) (settings : Settings)
    (text : List Char) (hUnloaded : engine.isModelLoaded = false)
    (_hne : text ≠ []) :
    classifyText engine settings text = failSafeResult ∧
    failSafeResult.label = Label.normal ∧
    failSafeResult.confidence = mkRat 1 2 ∧
    containsSub (cs failSafeResult.explanation) (cs "model not available") = true := by
  refine ⟨?_, by decide, by decide, by decide⟩
  unfold classifyText
  rw [hUnloaded]
  simp

/-- Witness for C2 at a concrete failed engine and the text
`"hello world"`. -/
theorem classifyText_failSafe_witness :
    (⟨false, false, false, fun _ => []⟩ : EngineState).isModelLoaded = false ∧
    cs "hello world" ≠ [] ∧
    classifyText ⟨false, false, false, fun _ => []⟩
      ⟨true, mkRat 7 10, "cardiffnlp/twitter-roberta-base-hate"⟩
      (cs "hello world") = failSafeResult :=
  ⟨rfl, by decide,
    (classifyText_failSafe ⟨false, false, false, fun _ => []⟩
      ⟨true, mkRat 7 10, "cardiffnlp/twitter-roberta-base-hate"⟩
      (cs "hello world") rfl (by decide)).1⟩

/-! ## C9: malformed classification requests are rejected -/

/-- C9.  A classification request whose text is missing, empty or not a
string is answered with `{success: false, error}` carrying the element
id; the state is unchanged (no detection stored, counters untouched) and
no classification is produced. -/
theorem handleClassificationRequest_rejects_invalid (st : BgState)
    (req : ClassificationRequest) (h : invalidText req.text = true) :
    handleClassificationRequest st req =
      ({ success := false, classification := none, elementId := req.elementId,
         error := some "Invalid text provided", originalText := none }, st) := by
  unfold handleClassificationRequest
  match hreq : req.text with
  | .str [] => rfl
  | .str (c :: rest) => rw [hreq] at h; exact absurd h (by simp [invalidText])
  | .missing => rfl
  | .nonString => rfl

/-- Witness for C9 at a concrete state and a request with a missing text
field. -/
theorem handleClassificationRequest_rejects_invalid_witness :
    invalidText JSText.missing = true ∧
    handleClassificationRequest
      ⟨⟨false, false, false, fun _ => []⟩, ⟨true, mkRat 7 10, "m"⟩, [], ⟨0, 0⟩⟩
      ⟨JSText.missing, "hs-ext-1"⟩ =
      ({ success := false, classification := none, elementId := "hs-ext-1",
         error := some "Invalid text provided", originalText := none },
       ⟨⟨false, false, false, fun _ => []⟩, ⟨true, mkRat 7 10, "m"⟩, [], ⟨0, 0⟩⟩) :=
  ⟨rfl, handleClassificationRequest_rejects_invalid _ _ rfl⟩

/-! ## C4: the hateful verdict is antitone in the threshold -/

/-- C4.  For a fixed text and fixed model output, raising the confidence
threshold never turns a normal verdict into a hateful one. -/
theorem raising_threshold_keeps_normal (cfg : ModelConfig) (text : List Char)
    (result : List (List Char × ℚ)) (t t' : ℚ) (hle : t ≤ t')
    (hnorm : (classifyWithAI cfg t text result).label = Label.normal) :
    (classifyWithAI cfg t' text result).label = Label.normal := by
  rcases hl : (classifyWithAI cfg t' text result).label with _ | _
  · exfalso
    rcases (classifyWithAI_hateful_iff cfg t' text result).mp hl with ⟨hflag, hconf⟩
    have : (classifyWithAI cfg t text result).label = Label.hateful :=
      (classifyWithAI_hateful_iff cfg t text result).mpr ⟨hflag, le_trans hle hconf⟩
    rw [this] at hnorm
    cases hnorm
  · rfl

/-- Witness for C4: raising the threshold from 0.5 to 0.9 on an empty
model output keeps the normal verdict. -/
theorem raising_threshold_keeps_normal_witness :
    (mkRat 1 2 ≤ mkRat 9 10) ∧
    (classifyWithAI twitterModel (mkRat 1 2) (cs "plain text") []).label = Label.normal ∧
    (classifyWithAI twitterModel (mkRat 9 10) (cs "plain text") []).label = Label.normal :=
  ⟨by decide, by decide,
    raising_threshold_keeps_normal twitterModel (cs "plain text") []
      (mkRat 1 2) (mkRat 9 10) (by decide) (by decide)⟩

/-! ## C10: confidence clamping -/

/-- The scan's running maximum stays at most 1 when every score is at
most 1 (the maximum starts at 0 and is only ever replaced by a score). -/
theorem scan_maxConfidence_le_one (cfg : ModelConfig) (result : List (List Char × ℚ)) :
    ∀ st : ScanState, (∀ p ∈ result, p.2 ≤ 1) → st.maxConfidence ≤ 1 →
      (result.foldl (scanStep cfg) st).maxConfidence ≤ 1 := by
  induction result with
  | nil => exact fun st _ hst => hst
  | cons p rest ih =>
    intro st h hst
    rw [List.foldl_cons]
    refine ih (scanStep cfg st p) (fun q hq => h q (List.mem_cons_of_mem p hq)) ?_
    rcases scanStep_maxConfidence_cases cfg st p with hc | hc
    · rw [hc]; exact hst
    · rw [hc]; exact h p (List.mem_cons_self p rest)

/-- C10 counterexample.  The code clamps a normal verdict's confidence
only from below: on the model output `[(normal, 1.2)]` the verdict is
normal with confidence `max(0.5, 1.2) = 1.2 > 1`, so the claimed
`[0.5, 1]` bound fails for this model output. -/
theorem classifyWithAI_confidence_counterexample :
    (classifyWithAI twitterModel (mkRat 7 10) (cs "sample")
        [(cs "normal", mkRat 6 5)]).label = Label.normal ∧
    (classifyWithAI twitterModel (mkRat 7 10) (cs "sample")
        [(cs "normal", mkRat 6 5)]).confidence = mkRat 6 5 ∧
    ¬((classifyWithAI twitterModel (mkRat 7 10) (cs "sample")
        [(cs "normal", mkRat 6 5)]).confidence ≤ 1) := by
  refine ⟨by decide, by decide, by decide⟩

/-- C10 amended.  For every input text and every model output, a normal
verdict reports a confidence of at least 0.5 (the running maximum
clamped up to 0.5) and a hateful verdict reports a confidence of at most
0.95 (the running maximum clamped down to 0.95); the upper bound of 1 on
a normal verdict's confidence additionally requires every model score to
be at most 1, since the code clamps the normal confidence only from
below (see the counterexample). -/
theorem classifyWithAI_confidence_bounds (cfg : ModelConfig) (t : ℚ)
    (text : List Char) (result : List (List Char × ℚ)) :
    ((classifyWithAI cfg t text result).label = Label.normal →
      mkRat 1 2 ≤ (classifyWithAI cfg t text result).confidence) ∧
    ((classifyWithAI cfg t text result).label = Label.hateful →
      (classifyWithAI cfg t text result).confidence ≤ mkRat 19 20) ∧
    ((∀ p ∈ result, p.2 ≤ 1) →
      (classifyWithAI cfg t text result).label = Label.normal →
      (classifyWithAI cfg t text result).confidence ≤ 1) := by
  have hmax : ∀ hsc : ∀ p ∈ result, p.2 ≤ 1, (scanFinal cfg result).maxConfidence ≤ 1 :=
    fun hsc => scan_maxConfidence_le_one cfg result initScan hsc (by decide)
  unfold classifyWithAI
  split
  · refine ⟨fun hlab => absurd hlab (by simp), fun _ => min_le_left _ _,
      fun _ hlab => absurd hlab (by simp)⟩
  · refine ⟨fun _ => le_max_left _ _, fun hlab => absurd hlab (by simp),
      fun hsc _ => max_le (by decide) (hmax hsc)⟩

/-! ## C3: statistics consistency under submissions -/

/-- Record-level description of one successful `submitFeedback` call:
`totalFeedback` goes up by one, exactly the counter matching the feedback
type goes up by one, and the stored accuracy is recomputed from the new
counters. -/
theorem submitStep_stats (store : FeedbackStore) (sub : PendingFeedback × String × Nat) :
    (getFeedbackStats (submitStep store sub)).totalFeedback
        = (getFeedbackStats store).totalFeedback + 1 ∧
    (getFeedbackStats (submitStep store sub)).falsePositives
        = (getFeedbackStats store).falsePositives +
            (if sub.1.fbType = FbType.false_positive then 1 else 0) ∧
    (getFeedbackStats (submitStep store sub)).falseNegatives
        = (getFeedbackStats store).falseNegatives +
            (if sub.1.fbType = FbType.false_negative then 1 else 0) ∧
    (getFeedbackStats (submitStep store sub)).correctClassifications
        = (getFeedbackStats store).correctClassifications +
            (if sub.1.fbType = FbType.correct then 1 else 0) ∧
    (getFeedbackStats (submitStep store sub)).accuracy
        = (if 0 < (getFeedbackStats (submitStep store sub)).falsePositives +
              (getFeedbackStats (submitStep store sub)).falseNegatives +
              (getFeedbackStats (submitStep store sub)).correctClassifications
            then ((getFeedbackStats (submitStep store sub)).correctClassifications : ℚ) /
              (((getFeedbackStats (submitStep store sub)).falsePositives +
                (getFeedbackStats (submitStep store sub)).falseNegatives +
                (getFeedbackStats (submitStep store sub)).correctClassifications : Nat) : ℚ)
            else 0) := by
  rcases sub with ⟨p, newId, ts⟩
  cases hty : p.fbType <;>
    simp [submitStep, submitFeedbackF, updateStats, getFeedbackStats, hty]

/-- Folding submissions adds the number of submissions to
`totalFeedback`. -/
theorem fold_submit_total (subs : List (PendingFeedback × String × Nat))
    (store : FeedbackStore) :
    (getFeedbackStats (subs.foldl submitStep store)).totalFeedback
      = (getFeedbackStats store).totalFeedback + subs.length := by
  induction subs generalizing store with
  | nil => simp
  | cons s rest ih =>
    rw [List.foldl_cons, ih (submitStep store s), (submitStep_stats store s).1,
      List.length_cons]
    omega

/-- The counter-sum and accuracy invariants are preserved by folding
submissions. -/
theorem fold_submit_invariant (subs : List (PendingFeedback × String × Nat))
    (store : FeedbackStore)
    (hsum : (getFeedbackStats store).totalFeedback
      = (getFeedbackStats store).falsePositives +
        (getFeedbackStats store).falseNegatives +
        (getFeedbackStats store).correctClassifications)
    (hacc : (getFeedbackStats store).accuracy
      = (if 0 < (getFeedbackStats store).falsePositives +
            (getFeedbackStats store).falseNegatives +
            (getFeedbackStats store).correctClassifications
          then ((getFeedbackStats store).correctClassifications : ℚ) /
            (((getFeedbackStats store).falsePositives +
              (getFeedbackStats store).falseNegatives +
              (getFeedbackStats store).correctClassifications : Nat) : ℚ)
          else 0)) :
    (getFeedbackStats (subs.foldl submitStep store)).totalFeedback
      = (getFeedbackStats (subs.foldl submitStep store)).falsePositives +
        (getFeedbackStats (subs.foldl submitStep store)).falseNegatives +
        (getFeedbackStats (subs.foldl submitStep store)).correctClassifications ∧
    (getFeedbackStats (subs.foldl submitStep store)).accuracy
      = (if 0 < (getFeedbackStats (subs.foldl submitStep store)).falsePositives +
            (getFeedbackStats (subs.foldl submitStep store)).falseNegatives +
            (getFeedbackStats (subs.foldl submitStep store)).correctClassifications
          then ((getFeedbackStats (subs.foldl submitStep store)).correctClassifications : ℚ) /
            (((getFeedbackStats (subs.foldl submitStep store)).falsePositives +
              (getFeedbackStats (subs.foldl submitStep store)).falseNegatives +
              (getFeedbackStats (subs.foldl submitStep store)).correctClassifications : Nat) : ℚ)
          else 0) := by
  induction subs generalizing store with
  | nil => exact ⟨hsum, hacc⟩
  | cons s rest ih =>
    obtain ⟨h1, h2, h3, h4, h5⟩ := submitStep_stats store s
    refine ih (submitStep store s) ?_ h5
    rw [h1, h2, h3, h4, hsum]
    cases s.1.fbType <;> simp <;> omega

/-- C3.  After any sequence of N successful `submitFeedback` calls
starting from the empty store, the derived statistics satisfy
`total = N`, `total = falsePositives + falseNegatives + correct`, and
`accuracy = correct / (correct + falsePositives + falseNegatives)` when
that denominator is positive, else 0. -/
theorem feedbackStats_consistent (subs : List (PendingFeedback × String × Nat)) :
    (getFeedbackStats (subs.foldl submitStep emptyFeedbackStore)).totalFeedback
        = subs.length ∧
    (getFeedbackStats (subs.foldl submitStep emptyFeedbackStore)).totalFeedback
      = (getFeedbackStats (subs.foldl submitStep emptyFeedbackStore)).falsePositives +
        (getFeedbackStats (subs.foldl submitStep emptyFeedbackStore)).falseNegatives +
        (getFeedbackStats (subs.foldl submitStep emptyFeedbackStore)).correctClassifications ∧
    (getFeedbackStats (subs.foldl submitStep emptyFeedbackStore)).accuracy
      = (if 0 < (getFeedbackStats (subs.foldl submitStep emptyFeedbackStore)).falsePositives +
            (getFeedbackStats (subs.foldl submitStep emptyFeedbackStore)).falseNegatives +
            (getFeedbackStats (subs.foldl submitStep emptyFeedbackStore)).correctClassifications
          then ((getFeedbackStats (subs.foldl submitStep emptyFeedbackStore)).correctClassifications : ℚ) /
            (((getFeedbackStats (subs.foldl submitStep emptyFeedbackStore)).falsePositives +
              (getFeedbackStats (subs.foldl submitStep emptyFeedbackStore)).falseNegatives +
              (getFeedbackStats (subs.foldl submitStep emptyFeedbackStore)).correctClassifications : Nat) : ℚ)
          else 0) := by
  obtain ⟨h1, h2⟩ := fold_submit_invariant subs emptyFeedbackStore (by decide) (by simp [getFeedbackStats, emptyFeedbackStore, getDefaultStats])
  refine ⟨?_, h1, h2⟩
  rw [fold_submit_total subs emptyFeedbackStore]
  simp [getFeedbackStats, emptyFeedbackStore, getDefaultStats]

/-! ## C5: export round-trip -/

/-- Prepending into a capped list and re-capping absorbs the inner cap. -/
theorem take_append_take (n : Nat) (A B : List FeedbackData) :
    List.take n (A ++ List.take n B) = List.take n (A ++ B) := by
  rw [List.take_append_eq_append_take, List.take_append_eq_append_take,
    List.take_take, min_eq_left (Nat.sub_le n A.length)]

/-- After folding submissions, the stored log is the newest-first list of
all submitted entries, capped at 1000 (oldest evicted first). -/
theorem fold_submit_feedback (subs : List (PendingFeedback × String × Nat))
    (store : FeedbackStore) (hlen : store.feedback.length ≤ 1000) :
    (subs.foldl submitStep store).feedback
      = List.take 1000 ((subs.map mkFeedbackData).reverse ++ store.feedback) := by
  induction subs generalizing store with
  | nil =>
    simp [List.take_of_length_le hlen]
  | cons s rest ih =>
    have hfeed : (submitStep store s).feedback
        = List.take 1000 (mkFeedbackData s :: store.feedback) := rfl
    have hlen1 : (submitStep store s).feedback.length ≤ 1000 := by
      rw [hfeed]; exact List.length_take_le 1000 _
    rw [List.foldl_cons, ih (submitStep store s) hlen1, hfeed,
      List.map_cons, List.reverse_cons, take_append_take, List.append_assoc,
      List.singleton_append]

/-- C5.  After K successful submissions starting from the empty store,
the export object (whose JSON stringify/parse round-trip is the identity)
has a feedback array of length `min K 1000` holding the most recent
entries newest-first (the oldest beyond the 1000 cap evicted first), and
its stats field is exactly `getFeedbackStats` at export time. -/
theorem exportFeedback_roundTrip (subs : List (PendingFeedback × String × Nat))
    (d : String) :
    (exportFeedback (subs.foldl submitStep emptyFeedbackStore) d).feedback.length
        = min subs.length 1000 ∧
    (exportFeedback (subs.foldl submitStep emptyFeedbackStore) d).feedback
        = List.take 1000 (subs.map mkFeedbackData).reverse ∧
    (exportFeedback (subs.foldl submitStep emptyFeedbackStore) d).stats
        = getFeedbackStats (subs.foldl submitStep emptyFeedbackStore) := by
  have hfeed : (subs.foldl submitStep emptyFeedbackStore).feedback
      = List.take 1000 (subs.map mkFeedbackData).reverse := by
    have := fold_submit_feedback subs emptyFeedbackStore (by decide)
    simpa [emptyFeedbackStore] using this
  refine ⟨?_, ?_, rfl⟩
  · show (subs.foldl submitStep emptyFeedbackStore).feedback.length = _
    rw [hfeed, List.length_take, List.length_reverse, List.length_map,
      Nat.min_comm]
  · exact hfeed

/-! ## C6: atomicity of feedback submission -/

/-- C6 counterexample.  When the feedback-log write succeeds but the
statistics write fails, `submitFeedback` reports success, the log has
gained the new entry, and the statistics are unchanged — a partial state
with no error surfaced, contradicting the all-or-nothing claim. -/
theorem submitFeedback_partial_state_counterexample :
    (submitFeedbackF emptyFeedbackStore ⟨cs "sample text", FbType.correct⟩
        "fb-1" 42 false true).1 = SubmitResult.ok ∧
    (submitFeedbackF emptyFeedbackStore ⟨cs "sample text", FbType.correct⟩
        "fb-1" 42 false true).2.feedback
      = [{ id := "fb-1", timestamp := 42, originalText := cs "sample text",
           fbType := FbType.correct }] ∧
    (submitFeedbackF emptyFeedbackStore ⟨cs "sample text", FbType.correct⟩
        "fb-1" 42 false true).2.stats = none ∧
    (getFeedbackStats (submitFeedbackF emptyFeedbackStore
        ⟨cs "sample text", FbType.correct⟩ "fb-1" 42 false true).2).totalFeedback
      = 0 := by
  refine ⟨by decide, by decide, by decide, by decide⟩

/-- C6 amended.  `submitFeedback` is atomic only with respect to the
feedback-log write: if that write fails, the error is rethrown to the
caller and no state changes.  A failure of the statistics write inside
`updateStats`, however, is caught and swallowed there: the call still
reports success, the log keeps the new entry, and the statistics are left
unchanged — so that partial state is observable.  On full success both
the log and the statistics advance together. -/
theorem submitFeedbackF_characterization (store : FeedbackStore)
    (p : PendingFeedback) (newId : String) (ts : Nat) :
    (∀ b, submitFeedbackF store p newId ts true b = (SubmitResult.err, store)) ∧
    (submitFeedbackF store p newId ts false true
      = (SubmitResult.ok,
          { store with
            feedback := (mkFeedbackData (p, newId, ts) :: store.feedback).take 1000 })) ∧
    ((getFeedbackStats (submitFeedbackF store p newId ts false true).2).totalFeedback
      = (getFeedbackStats store).totalFeedback) ∧
    ((submitFeedbackF store p newId ts false false).1 = SubmitResult.ok) ∧
    ((submitFeedbackF store p newId ts false false).2.feedback
      = (mkFeedbackData (p, newId, ts) :: store.feedback).take 1000) ∧
    ((getFeedbackStats (submitFeedbackF store p newId ts false false).2).totalFeedback
      = (getFeedbackStats store).totalFeedback + 1) := by
  refine ⟨fun b => rfl, rfl, rfl, rfl, rfl, ?_⟩
  exact (submitStep_stats store (p, newId, ts)).1

/-! ## C7: extractor idempotence and at-most-once processing -/

theorem isMarkedOrProcessed_mono (st st' : CSState) (h : subState st st') (r : Nat)
    (hm : isMarkedOrProcessed st r = true) : isMarkedOrProcessed st' r = true := by
  unfold isMarkedOrProcessed at hm ⊢
  rcases Bool.or_eq_true_iff.mp hm with h1 | h1
  · rw [h.1 r h1]
    simp
  · rw [h.2 r h1]
    simp

theorem childOfProcessed_mono (st st' : CSState) (h : subState st st') (anc : List Nat)
    (hc : childOfProcessed st anc = true) : childOfProcessed st' anc = true := by
  unfold childOfProcessed at hc ⊢
  rcases List.any_eq_true.mp hc with ⟨r, hr, hmr⟩
  exact List.any_eq_true.mpr ⟨r, hr, isMarkedOrProcessed_mono st st' h r hmr⟩

theorem isMarkedOrProcessed_antitone (st st' : CSState) (h : subState st st') (r : Nat)
    (hm : isMarkedOrProcessed st' r = false) : isMarkedOrProcessed st r = false := by
  cases hq : isMarkedOrProcessed st r with
  | false => rfl
  | true =>
    have := isMarkedOrProcessed_mono st st' h r hq
    rw [this] at hm
    cases hm

theorem childOfProcessed_antitone (st st' : CSState) (h : subState st st') (anc : List Nat)
    (hc : childOfProcessed st' anc = false) : childOfProcessed st anc = false := by
  cases hq : childOfProcessed st anc with
  | false => rfl
  | true =>
    have := childOfProcessed_mono st st' h anc hq
    rw [this] at hc
    cases hc

theorem isTextElement_antitone (st st' : CSState) (h : subState st st') (anc : List Nat)
    (d : ElemData) (kids : DForest) (ht : isTextElement st' anc d kids = true) :
    isTextElement st anc d kids = true := by
  unfold isTextElement at ht ⊢
  simp only [Bool.and_eq_true, Bool.not_eq_true'] at ht ⊢
  obtain ⟨⟨⟨⟨⟨hlen, htag⟩, hmark⟩, hvis⟩, hnc⟩, hch⟩ := ht
  exact ⟨⟨⟨⟨⟨hlen, htag⟩, isMarkedOrProcessed_antitone st st' h d.ref hmark⟩, hvis⟩, hnc⟩,
    childOfProcessed_antitone st st' h anc hch⟩

theorem acceptTextNode_antitone (st st' : CSState) (h : subState st st') (anc : List Nat)
    (d : ElemData) (full : DForest) (s : List Char)
    (ha : acceptTextNode st' anc d full s = true) :
    acceptTextNode st anc d full s = true := by
  unfold acceptTextNode at ha ⊢
  simp only [Bool.and_eq_true, Bool.not_eq_true'] at ha ⊢
  obtain ⟨⟨h10, hmark⟩, hte⟩ := ha
  exact ⟨⟨h10, isMarkedOrProcessed_antitone st st' h d.ref hmark⟩,
    isTextElement_antitone st st' h anc d full hte⟩

mutual
/-- Growing the marked/processed sets only removes accepted positions. -/
theorem accParentsChild_antitone (st st' : CSState) (h : subState st st')
    (anc : List Nat) (d : ElemData) (full : DForest) :
    ∀ (n : DNode) (r : Nat), r ∈ accParentsChild st' anc d full n →
      r ∈ accParentsChild st anc d full n
  | .text s, r, hr => by
    unfold accParentsChild at hr ⊢
    by_cases ha : acceptTextNode st' anc d full s = true
    · rw [acceptTextNode_antitone st st' h anc d full s ha]
      rw [ha] at hr
      simpa using hr
    · rw [Bool.not_eq_true] at ha
      rw [ha] at hr
      simp at hr
  | .elem d1 kids1, r, hr => by
    unfold accParentsChild at hr ⊢
    exact accParentsRest_antitone st st' h (d.ref :: anc) d1 kids1 kids1 r hr

theorem accParentsRest_antitone (st st' : CSState) (h : subState st st')
    (anc : List Nat) (d : ElemData) (full : DForest) :
    ∀ (f : DForest) (r : Nat), r ∈ accParentsRest st' anc d full f →
      r ∈ accParentsRest st anc d full f
  | .nil, _, hr => hr
  | .cons n t, r, hr => by
    unfold accParentsRest at hr ⊢
    rcases List.mem_append.mp hr with hh | hh
    · exact List.mem_append.mpr (Or.inl (accParentsChild_antitone st st' h anc d full n r hh))
    · exact List.mem_append.mpr (Or.inr (accParentsRest_antitone st st' h anc d full t r hh))
end

mutual
/-- Every accepted-parent ref is unmarked and unprocessed in the state
the walk was run in (the filter checks this). -/
theorem accParentsChild_unmarked (st : CSState) (anc : List Nat) (d : ElemData)
    (full : DForest) :
    ∀ (n : DNode) (r : Nat), r ∈ accParentsChild st anc d full n →
      isMarkedOrProcessed st r = false
  | .text s, r, hr => by
    unfold accParentsChild at hr
    by_cases ha : acceptTextNode st anc d full s = true
    · rw [ha] at hr
      simp at hr
      subst hr
      unfold acceptTextNode at ha
      simp only [Bool.and_eq_true, Bool.not_eq_true'] at ha
      exact ha.1.2
    · rw [Bool.not_eq_true] at ha
      rw [ha] at hr
      simp at hr
  | .elem d1 kids1, r, hr => by
    unfold accParentsChild at hr
    exact accParentsRest_unmarked st (d.ref :: anc) d1 kids1 kids1 r hr

theorem accParentsRest_unmarked (st : CSState) (anc : List Nat) (d : ElemData)
    (full : DForest) :
    ∀ (f : DForest) (r : Nat), r ∈ accParentsRest st anc d full f →
      isMarkedOrProcessed st r = false
  | .cons n t, r, hr => by
    unfold accParentsRest at hr
    rcases List.mem_append.mp hr with hh | hh
    · exact accParentsChild_unmarked st anc d full n r hh
    · exact accParentsRest_unmarked st anc d full t r hh
end

mutual
/-- Every accepted-parent ref ends up among the refs of the walk's
output (the deduplication only drops repeats). -/
theorem walkChild_collects (st : CSState) (anc : List Nat) (d : ElemData)
    (full : DForest) :
    ∀ (n : DNode) (acc : List Cand) (r : Nat),
      (r ∈ accParentsChild st anc d full n ∨ candListHasRef acc r = true) →
      candListHasRef (walkChild st anc d full n acc) r = true
  | .text s, acc, r, hr => by
    unfold accParentsChild at hr
    unfold walkChild
    by_cases ha : acceptTextNode st anc d full s = true
    · rw [ha] at hr
      by_cases hin : candListHasRef acc d.ref = true
      · have hcond : (acceptTextNode st anc d full s && !candListHasRef acc d.ref) = false := by
          rw [hin]
          simp
        rw [hcond]
        simp only [Bool.false_eq_true, if_false]
        rcases hr with hh | hh
        · simp at hh
          subst hh
          exact hin
        · exact hh
      · rw [Bool.not_eq_true] at hin
        have hcond : (acceptTextNode st anc d full s && !candListHasRef acc d.ref) = true := by
          rw [ha, hin]
          rfl
        rw [hcond]
        simp only [if_true]
        rcases hr with hh | hh
        · simp at hh
          subst hh
          unfold candListHasRef
          rw [List.any_append]
          simp [candListHasRef]
        · unfold candListHasRef at hh ⊢
          rw [List.any_append, hh]
          simp
    · rw [Bool.not_eq_true] at ha
      rw [ha] at hr
      simp only [Bool.false_eq_true, if_false] at hr
      rw [ha, Bool.false_and]
      simp only [Bool.false_eq_true, if_false]
      rcases hr with hh | hh
      · simp at hh
      · exact hh
  | .elem d1 kids1, acc, r, hr => by
    unfold accParentsChild at hr
    unfold walkChild
    exact walkRest_collects st (d.ref :: anc) d1 kids1 kids1 acc r hr

theorem walkRest_collects (st : CSState) (anc : List Nat) (d : ElemData)
    (full : DForest) :
    ∀ (f : DForest) (acc : List Cand) (r : Nat),
      (r ∈ accParentsRest st anc d full f ∨ candListHasRef acc r = true) →
      candListHasRef (walkRest st anc d full f acc) r = true
  | .nil, acc, r, hr => by
    unfold accParentsRest at hr
    rcases hr with hh | hh
    · simp at hh
    · exact hh
  | .cons n t, acc, r, hr => by
    unfold accParentsRest at hr
    unfold walkRest
    refine walkRest_collects st anc d full t (walkChild st anc d full n acc) r ?_
    rcases hr with hh | hh
    · rcases List.mem_append.mp hh with hh1 | hh1
      · exact Or.inr (walkChild_collects st anc d full n acc r (Or.inl hh1))
      · exact Or.inl hh1
    · exact Or.inr (walkChild_collects st anc d full n acc r (Or.inr hh))
end

mutual
/-- With no accepted positions, the walk adds nothing. -/
theorem walkChild_no_accept (st : CSState) (anc : List Nat) (d : ElemData)
    (full : DForest) :
    ∀ (n : DNode) (acc : List Cand), accParentsChild st anc d full n = [] →
      walkChild st anc d full n acc = acc
  | .text s, acc, he => by
    unfold accParentsChild at he
    unfold walkChild
    by_cases ha : acceptTextNode st anc d full s = true
    · rw [ha] at he
      simp at he
    · rw [Bool.not_eq_true] at ha
      rw [ha, Bool.false_and]
      simp
  | .elem d1 kids1, acc, he => by
    unfold accParentsChild at he
    unfold walkChild
    exact walkRest_no_accept st (d.ref :: anc) d1 kids1 kids1 acc he

theorem walkRest_no_accept (st : CSState) (anc : List Nat) (d : ElemData)
    (full : DForest) :
    ∀ (f : DForest) (acc : List Cand), accParentsRest st anc d full f = [] →
      walkRest st anc d full f acc = acc
  | .nil, _, _ => rfl
  | .cons n t, acc, he => by
    unfold accParentsRest at he
    unfold walkRest
    rcases List.append_eq_nil.mp he with ⟨he1, he2⟩
    rw [walkChild_no_accept st anc d full n acc he1,
      walkRest_no_accept st anc d full t acc he2]
end

mutual
/-- Every collected candidate has substantial trimmed text (it passed
the `isTextElement` length check). -/
theorem walkChild_mem_len (st : CSState) (anc : List Nat) (d : ElemData)
    (full : DForest) :
    ∀ (n : DNode) (acc : List Cand) (c : Cand), c ∈ walkChild st anc d full n acc →
      c ∈ acc ∨ 10 ≤ (jsTrim (textContentF c.kids)).length
  | .text s, acc, c, hc => by
    unfold walkChild at hc
    by_cases hcond : (acceptTextNode st anc d full s && !candListHasRef acc d.ref) = true
    · rw [hcond] at hc
      simp only [if_true] at hc
      rcases List.mem_append.mp hc with hh | hh
      · exact Or.inl hh
      · refine Or.inr ?_
        rcases List.mem_singleton.mp hh with rfl
        have ha : acceptTextNode st anc d full s = true := by
          simp only [Bool.and_eq_true] at hcond
          exact hcond.1
        unfold acceptTextNode isTextElement at ha
        simp only [Bool.and_eq_true, decide_eq_true_eq] at ha
        exact ha.2.1.1.1.1.1.1
    · rw [Bool.not_eq_true] at hcond
      rw [hcond] at hc
      simp only [Bool.false_eq_true, if_false] at hc
      exact Or.inl hc
  | .elem d1 kids1, acc, c, hc => by
    unfold walkChild at hc
    exact walkRest_mem_len st (d.ref :: anc) d1 kids1 kids1 acc c hc

theorem walkRest_mem_len (st : CSState) (anc : List Nat) (d : ElemData)
    (full : DForest) :
    ∀ (f : DForest) (acc : List Cand) (c : Cand), c ∈ walkRest st anc d full f acc →
      c ∈ acc ∨ 10 ≤ (jsTrim (textContentF c.kids)).length
  | .nil, _, _, hc => Or.inl hc
  | .cons n t, acc, c, hc => by
    unfold walkRest at hc
    rcases walkRest_mem_len st anc d full t (walkChild st anc d full n acc) c hc with hh | hh
    · exact walkChild_mem_len st anc d full n acc c hh
    · exact Or.inr hh
end

theorem subState_refl (st : CSState) : subState st st :=
  ⟨fun _ h => h, fun _ h => h⟩

theorem subState_trans (s1 s2 s3 : CSState) (h1 : subState s1 s2) (h2 : subState s2 s3) :
    subState s1 s3 :=
  ⟨fun r h => h2.1 r (h1.1 r h), fun r h => h2.2 r (h1.2 r h)⟩

theorem processTextElement_sub (st : CSState) (c : Cand) :
    subState st (processTextElement st c) := by
  unfold processTextElement
  split
  · exact subState_refl st
  · constructor
    · intro r h
      rw [List.contains_cons, h]
      simp
    · intro r h
      rw [List.contains_cons, h]
      simp

theorem foldl_process_sub (l : List Cand) :
    ∀ st : CSState, subState st (l.foldl processTextElement st) := by
  induction l with
  | nil => exact fun st => subState_refl st
  | cons c rest ih =>
    intro st
    exact subState_trans st (processTextElement st c) _
      (processTextElement_sub st c) (ih (processTextElement st c))

theorem processTextElement_marks (st : CSState) (c : Cand)
    (hlen : 10 ≤ (jsTrim (textContentF c.kids)).length) :
    (processTextElement st c).marked.contains c.data.ref = true := by
  unfold processTextElement
  by_cases hcond : (decide ((jsTrim (textContentF c.kids)).length < 10)
      || st.marked.contains c.data.ref) = true
  · rw [if_pos hcond]
    rcases Bool.or_eq_true_iff.mp hcond with h1 | h1
    · rw [decide_eq_true_eq] at h1
      omega
    · exact h1
  · rw [if_neg hcond]
    simp [List.contains_cons]

theorem foldl_process_marks (l : List Cand) :
    ∀ st : CSState, (∀ c ∈ l, 10 ≤ (jsTrim (textContentF c.kids)).length) →
      ∀ c ∈ l, (l.foldl processTextElement st).marked.contains c.data.ref = true := by
  induction l with
  | nil => intro st _ c hc; cases hc
  | cons c0 rest ih =>
    intro st hlen c hc
    rw [List.foldl_cons]
    rcases List.mem_cons.mp hc with rfl | hmem
    · have h1 : (processTextElement st c).marked.contains c.data.ref = true :=
        processTextElement_marks st c (hlen c (List.mem_cons_self c rest))
      exact (foldl_process_sub rest (processTextElement st c)).1 c.data.ref h1
    · exact ih (processTextElement st c0)
        (fun c' hc' => hlen c' (List.mem_cons_of_mem c0 hc')) c hmem

/-- C7.  The extraction pipeline is idempotent and at-most-once:
(1) `processTextElement` on an element whose `dataset.hsExtId` is already
set leaves the state untouched — in particular it sends nothing, so no
element is ever submitted twice; (2) when it does process an element, the
element is marked (id set, added to the processed set) in the same step
that records the single classification request; (3) after processing
every candidate that `findTextElements` returned, re-running
`findTextElements` over the unchanged subtree yields zero candidates. -/
theorem extractor_idempotent (st : CSState) (anc : List Nat) (d : ElemData)
    (kids : DForest) :
    (∀ c : Cand, st.marked.contains c.data.ref = true → processTextElement st c = st) ∧
    (∀ c : Cand, st.marked.contains c.data.ref = false →
      10 ≤ (jsTrim (textContentF c.kids)).length →
      (processTextElement st c).marked.contains c.data.ref = true ∧
      (processTextElement st c).sent
        = st.sent ++ [(jsTrim (textContentF c.kids), st.counter + 1)]) ∧
    findTextElements
      ((findTextElements st anc d kids).foldl processTextElement st) anc d kids = [] := by
  refine ⟨?_, ?_, ?_⟩
  · intro c hm
    unfold processTextElement
    rw [if_pos (by rw [hm, Bool.or_true])]
  · intro c hm hlen
    refine ⟨processTextElement_marks st c hlen, ?_⟩
    have hcond : ¬((decide ((jsTrim (textContentF c.kids)).length < 10)
        || st.marked.contains c.data.ref) = true) := by
      rw [hm, Bool.or_false, decide_eq_true_eq]
      omega
    unfold processTextElement
    rw [if_neg hcond]
  · have hempty : accParentsRest
        ((findTextElements st anc d kids).foldl processTextElement st) anc d kids kids
        = [] := by
      rw [List.eq_nil_iff_forall_not_mem]
      intro r hr
      set st' := (findTextElements st anc d kids).foldl processTextElement st with hst'
      have hsub : subState st st' := foldl_process_sub _ st
      have hunm : isMarkedOrProcessed st' r = false :=
        accParentsRest_unmarked st' anc d kids kids r hr
      have hr0 : r ∈ accParentsRest st anc d kids kids :=
        accParentsRest_antitone st st' hsub anc d kids kids r hr
      have hcands : candListHasRef (findTextElements st anc d kids) r = true := by
        unfold findTextElements
        exact walkRest_collects st anc d kids kids [] r (Or.inl hr0)
      unfold candListHasRef at hcands
      obtain ⟨c, hcmem, hcref⟩ := List.any_eq_true.mp hcands
      have hcref' : c.data.ref = r := by simpa using hcref
      have hlens : ∀ c' ∈ findTextElements st anc d kids,
          10 ≤ (jsTrim (textContentF c'.kids)).length := by
        intro c' hc'
        rcases walkRest_mem_len st anc d kids kids [] c' hc' with hh | hh
        · cases hh
        · exact hh
      have hmark : st'.marked.contains c.data.ref = true :=
        foldl_process_marks (findTextElements st anc d kids) st hlens c hcmem
      rw [hcref'] at hmark
      unfold isMarkedOrProcessed at hunm
      rw [hmark] at hunm
      cases hunm
    unfold findTextElements
    exact walkRest_no_accept _ anc d kids kids [] hempty

/-- Witness for C7: a concrete subtree with one qualifying paragraph.
After the first extraction run processes its candidate, a second run
finds nothing. -/
theorem extractor_idempotent_witness :
    (findTextElements ⟨[], [], 0, []⟩ []
      ⟨0, "DIV", 10, 10, "block", "visible", "1", 10, 10⟩
      (.cons (.elem ⟨1, "P", 10, 10, "block", "visible", "1", 10, 10⟩
        (.cons (.text (cs "hello world of words")) .nil)) .nil)).length = 1 ∧
    findTextElements
      ((findTextElements ⟨[], [], 0, []⟩ []
        ⟨0, "DIV", 10, 10, "block", "visible", "1", 10, 10⟩
        (.cons (.elem ⟨1, "P", 10, 10, "block", "visible", "1", 10, 10⟩
          (.cons (.text (cs "hello world of words")) .nil)) .nil)).foldl
        processTextElement ⟨[], [], 0, []⟩) []
      ⟨0, "DIV", 10, 10, "block", "visible", "1", 10, 10⟩
      (.cons (.elem ⟨1, "P", 10, 10, "block", "visible", "1", 10, 10⟩
        (.cons (.text (cs "hello world of words")) .nil)) .nil) = [] :=
  ⟨by decide,
    (extractor_idempotent ⟨[], [], 0, []⟩ []
      ⟨0, "DIV", 10, 10, "block", "visible", "1", 10, 10⟩
      (.cons (.elem ⟨1, "P", 10, 10, "block", "visible", "1", 10, 10⟩
        (.cons (.text (cs "hello world of words")) .nil)) .nil)).2.2⟩

/-! ## C8: preprocessing sanitisation -/

set_option maxRecDepth 100000 in
/-- C8 counterexample.  On an input whose trimmed, URL-free, collapsed
form is longer than 512 characters with a space at index 511, the final
truncation `substring(0, 512)` cuts right after that space, so the
preprocessed text ends in whitespace: the claim's "no trailing
whitespace" conjunct is false.  (The input is 511 `a`s, a space, and ten
`b`s.) -/
theorem preprocessText_trailing_space_counterexample :
    (preprocessText (List.replicate 511 'a' ++ ' ' :: List.replicate 10 'b')).length
        = 512 ∧
    lastIsSpace (preprocessText (List.replicate 511 'a' ++ ' ' :: List.replicate 10 'b'))
        = true := by
  refine ⟨by decide, by decide⟩

/-- C8 amended.  For every input, the preprocessed text contains no URL
substring matching `https?://` followed by non-whitespace, contains no
run of two consecutive whitespace characters, has no leading whitespace,
and has length at most 512; it also has no trailing whitespace whenever
no truncation occurs (the trimmed collapsed text is at most 512
characters long) — when truncation occurs the result may end in a single
whitespace character, as the counterexample shows. -/
theorem preprocessText_sanitized (l : List Char) :
    containsUrl (preprocessText l) = false ∧
    hasDoubleWs (preprocessText l) = false ∧
    headIsSpace (preprocessText l) = false ∧
    (preprocessText l).length ≤ 512 ∧
    ((jsTrim (collapseWs (removeUrls l))).length ≤ 512 →
      lastIsSpace (preprocessText l) = false) := by
  have hA : containsUrl (removeUrls l) = false := removeUrls_noUrl l
  have hB : containsUrl (collapseWs (removeUrls l)) = false :=
    collapseAux_noUrl (removeUrls l) false hA
  have hBd : hasDoubleWs (collapseWs (removeUrls l)) = false :=
    (collapseAux_shape (removeUrls l)).2
  -- the trimmed collapsed text
  have hCu : containsUrl (jsTrim (collapseWs (removeUrls l))) = false := by
    unfold jsTrim trimLeft
    obtain ⟨t, ht⟩ := trimRight_append ((collapseWs (removeUrls l)).dropWhile isSpace)
    refine containsUrl_of_append _ t ?_
    rw [ht]
    exact containsUrl_dropWhile isSpace _ hB
  have hCd : hasDoubleWs (jsTrim (collapseWs (removeUrls l))) = false := by
    unfold jsTrim trimLeft
    obtain ⟨t, ht⟩ := trimRight_append ((collapseWs (removeUrls l)).dropWhile isSpace)
    refine hasDoubleWs_of_append _ t ?_
    rw [ht]
    exact hasDoubleWs_dropWhile isSpace _ hBd
  have hCh : headIsSpace (jsTrim (collapseWs (removeUrls l))) = false := by
    unfold jsTrim trimLeft
    obtain ⟨t, ht⟩ := trimRight_append ((collapseWs (removeUrls l)).dropWhile isSpace)
    refine headIsSpace_of_append _ t ?_
    rw [ht]
    exact headIsSpace_dropWhile_isSpace _
  have hDdecomp : preprocessText l ++
      (jsTrim (collapseWs (removeUrls l))).drop maxLength
      = jsTrim (collapseWs (removeUrls l)) := by
    unfold preprocessText
    exact List.take_append_drop maxLength _
  refine ⟨?_, ?_, ?_, ?_, ?_⟩
  · exact containsUrl_of_append _ _ (by rw [hDdecomp]; exact hCu)
  · exact hasDoubleWs_of_append _ _ (by rw [hDdecomp]; exact hCd)
  · exact headIsSpace_of_append _ _ (by rw [hDdecomp]; exact hCh)
  · unfold preprocessText
    exact List.length_take_le maxLength _
  · intro hle
    have : preprocessText l = jsTrim (collapseWs (removeUrls l)) := by
      unfold preprocessText
      exact List.take_of_length_le hle
    rw [this]
    unfold jsTrim
    exact lastIsSpace_trimRight _

/-- Witness for the amended C8 at a short concrete input with a URL and
doubled spaces. -/
theorem preprocessText_sanitized_witness :
    (jsTrim (collapseWs (removeUrls (cs "see https://x.io/a  b")))).length ≤ 512 ∧
    lastIsSpace (preprocessText (cs "see https://x.io/a  b")) = false ∧
    containsUrl (preprocessText (cs "see https://x.io/a  b")) = false :=
  ⟨by decide,
    (preprocessText_sanitized (cs "see https://x.io/a  b")).2.2.2.2 (by decide),
    (preprocessText_sanitized (cs "see https://x.io/a  b")).1⟩

/-- Witness for the amended C10 at a concrete model output with scores
at most 1. -/
theorem classifyWithAI_confidence_bounds_witness :
    (classifyWithAI twitterModel (mkRat 7 10) (cs "sample")
        [(cs "hate", mkRat 3 5)]).label = Label.normal ∧
    (∀ p ∈ [(cs "hate", mkRat 3 5)], p.2 ≤ 1) ∧
    mkRat 1 2 ≤ (classifyWithAI twitterModel (mkRat 7 10) (cs "sample")
        [(cs "hate", mkRat 3 5)]).confidence ∧
    (classifyWithAI twitterModel (mkRat 7 10) (cs "sample")
        [(cs "hate", mkRat 3 5)]).confidence ≤ 1 :=
  ⟨by decide, by decide,
    (classifyWithAI_confidence_bounds twitterModel (mkRat 7 10) (cs "sample")
      [(cs "hate", mkRat 3 5)]).1 (by decide),
    (classifyWithAI_confidence_bounds twitterModel (mkRat 7 10) (cs "sample")
      [(cs "hate", mkRat 3 5)]).2.2 (by decide) (by decide)⟩

end Sentinel
